import Mathlib

/-!
Verification of the core of `facebook-gpt-shopify`: the stateless state-token
codec (`src/shared/utils.py`), the encrypted token and session stores
(`src/shared/tokens.py`, `src/shared/sessions.py`), the key-derivation entry
point, and the sync-dedup gate (`src/digitalocean_integration/spaces.py`).

Python strings are modelled as `List Char`; machine time as `Int` (Python ints
are unbounded, `time.time()` is truncated to an int before use); cryptographic
primitives (HMAC-SHA256, SHA-256, Fernet, PBKDF2) are parameters of the
definitions, with the properties the code relies on (collision freedom at the
relevant points, authenticated decryption) taken as explicit hypotheses.
-/

set_option maxHeartbeats 1000000

/-- Python `str` values, modelled as lists of characters. -/
abbrev Str := List Char

/-- Python truthiness of an optional string: `None` and `""` are falsy. -/
def truthyOpt : Option Str → Bool
  | none => false
  | some s => !s.isEmpty

/-! ### Decimal rendering and parsing of Python integers -/

/-- Fuel-driven digits accumulator: structural recursion so that concrete
tokens evaluate inside the kernel. `fuel > n` always suffices. -/
def natCharsF : Nat → Nat → List Char
  | 0, _ => []
  | f + 1, n =>
    if n < 10 then [Nat.digitChar n]
    else natCharsF f (n / 10) ++ [Nat.digitChar (n % 10)]

/-- Decimal digits of a natural number, most significant first; models the
digits of Python `str(n)` for `n ≥ 0`. -/
def natChars (n : Nat) : List Char := natCharsF (n + 1) n

theorem natCharsF_irrel (f1 : Nat) : ∀ f2 n, n < f1 → n < f2 →
    natCharsF f1 n = natCharsF f2 n := by
  induction f1 with
  | zero => omega
  | succ f1 ih =>
    intro f2 n h1 h2
    rcases f2 with _ | f2
    · omega
    · rw [natCharsF, natCharsF]
      by_cases h10 : n < 10
      · rw [if_pos h10, if_pos h10]
      · rw [if_neg h10, if_neg h10]
        have hdiv : n / 10 < n := Nat.div_lt_self (by omega) (by omega)
        rw [ih f2 (n / 10) (by omega) (by omega)]

theorem natChars_unfold (n : Nat) : natChars n =
    if n < 10 then [Nat.digitChar n]
    else natChars (n / 10) ++ [Nat.digitChar (n % 10)] := by
  rw [natChars, natCharsF]
  by_cases h10 : n < 10
  · rw [if_pos h10, if_pos h10]
  · rw [if_neg h10, if_neg h10, natChars,
      natCharsF_irrel n (n / 10 + 1) (n / 10) (by
        have := Nat.div_lt_self (show 0 < n by omega) (show 1 < 10 by omega)
        omega) (by omega)]

/-- Python `str` on an `int`: a minus sign for negatives, then the digits. -/
def intChars (i : Int) : List Char :=
  if i < 0 then '-' :: natChars (-i).toNat else natChars i.toNat

/-- Numeric value of a list of decimal digit characters. -/
def digitsVal (l : List Char) : Nat :=
  l.foldl (fun a c => 10 * a + (c.toNat - 48)) 0

/-- Valid continuation of a Python decimal literal after a digit: more digits,
with single underscores allowed only between digits. -/
def usTail : List Char → Bool
  | [] => true
  | [c] => c.isDigit
  | c :: d :: rest =>
    if c.isDigit then usTail (d :: rest)
    else if c = '_' then d.isDigit && usTail (d :: rest)
    else false

/-- A valid unsigned Python decimal literal body: starts with a digit, then
`usTail`. -/
def usNum : List Char → Bool
  | [] => false
  | c :: rest => c.isDigit && usTail rest

/-- Parse an unsigned Python decimal literal (underscores between digits are
ignored, as in `int("1_0") == 10`). -/
def pyNat? (l : List Char) : Option Nat :=
  if usNum l then some (digitsVal (l.filter (· ≠ '_'))) else none

/-- ASCII core of the `int(s)` model: an optional single leading sign
followed by ASCII digits, with single underscores allowed between digits.
`pyInt?` below composes this with the whitespace stripping and
Unicode-digit normalization `int` performs first. -/
def intCore? (l : List Char) : Option Int :=
  match l with
  | [] => none
  | c :: r =>
    if c = '-' then (pyNat? r).map (fun n => -(n : Int))
    else if c = '+' then (pyNat? r).map (fun n => (n : Int))
    else (pyNat? (c :: r)).map (fun n => (n : Int))

/-- Characters Python strips around a numeric literal before conversion (a
representative subset of Unicode whitespace; the remaining whitespace code
points would behave identically, and omitting them only makes the model
reject strings `int` accepts, which no theorem below exploits). -/
def isPySpace (c : Char) : Bool :=
  c.toNat = 32 || c.toNat = 9 || c.toNat = 10 || c.toNat = 13 ||
    c.toNat = 11 || c.toNat = 12

/-- The leading and trailing whitespace removal Python `int(str)` performs. -/
def pyStrip (l : List Char) : List Char :=
  ((l.dropWhile isPySpace).reverse.dropWhile isPySpace).reverse

/-- Decimal value of a character as Python `int` sees it: CPython accepts
every Unicode decimal digit (category Nd), not only ASCII — `int` maps each
Nd character to its decimal value, so the Arabic-Indic string `١٠٠` parses
as 100. Modelled for the ASCII digits and representative Nd ranges
(Arabic-Indic, Extended Arabic-Indic, Devanagari, Bengali, Fullwidth); the
remaining Nd ranges never occur in anything this program renders, and
omitting them only makes the model reject strings `int` would accept, which
no theorem below exploits. -/
def decDigit? (c : Char) : Option Nat :=
  if c.isDigit then some (c.toNat - 48)
  else if 0x660 ≤ c.toNat ∧ c.toNat ≤ 0x669 then some (c.toNat - 0x660)
  else if 0x6F0 ≤ c.toNat ∧ c.toNat ≤ 0x6F9 then some (c.toNat - 0x6F0)
  else if 0x966 ≤ c.toNat ∧ c.toNat ≤ 0x96F then some (c.toNat - 0x966)
  else if 0x9E6 ≤ c.toNat ∧ c.toNat ≤ 0x9EF then some (c.toNat - 0x9E6)
  else if 0xFF10 ≤ c.toNat ∧ c.toNat ≤ 0xFF19 then some (c.toNat - 0xFF10)
  else none

/-- CPython's decimal conversion replaces every accepted Unicode digit by
its ASCII form; any other character is left alone (and then fails in the
core parser unless it is a sign or a well-placed underscore). -/
def decMap (c : Char) : Char :=
  match decDigit? c with
  | some d => Nat.digitChar d
  | none => c

/-- Model of Python `int(s)`: strip surrounding whitespace, normalize
Unicode decimal digits to their ASCII forms, then parse an optional sign
followed by digits. -/
def pyInt? (l : List Char) : Option Int :=
  intCore? ((pyStrip l).map decMap)

/-! ### Basic facts about the decimal rendering -/

theorem natChars_ne_nil (n : Nat) : natChars n ≠ [] := by
  rw [natChars_unfold]
  split <;> simp

theorem digitChar_isDigit (d : Nat) (h : d < 10) : (Nat.digitChar d).isDigit = true := by
  interval_cases d <;> decide

theorem natChars_digits (n : Nat) : ∀ c ∈ natChars n, c.isDigit = true := by
  induction n using Nat.strong_induction_on with
  | _ n ih =>
    rw [natChars_unfold]
    split
    next h =>
      intro c hc
      simp only [List.mem_singleton] at hc
      subst hc
      exact digitChar_isDigit n h
    next h =>
      intro c hc
      rcases List.mem_append.1 hc with h1 | h1
      · exact ih (n / 10) (Nat.div_lt_self (by omega) (by omega)) c h1
      · simp only [List.mem_singleton] at h1
        subst h1
        exact digitChar_isDigit (n % 10) (Nat.mod_lt _ (by omega))

theorem digit_ne_special {c : Char} (h : c.isDigit = true) :
    c ≠ ':' ∧ c ≠ '-' ∧ c ≠ '+' ∧ c ≠ '_' := by
  refine ⟨?_, ?_, ?_, ?_⟩ <;> (intro he; subst he; simp [Char.isDigit] at h)

theorem digitsVal_append (l : List Char) (c : Char) :
    digitsVal (l ++ [c]) = 10 * digitsVal l + (c.toNat - 48) := by
  simp [digitsVal, List.foldl_append]

theorem digitChar_toNat (d : Nat) (h : d < 10) : (Nat.digitChar d).toNat = 48 + d := by
  interval_cases d <;> decide

theorem digitsVal_natChars (n : Nat) : digitsVal (natChars n) = n := by
  induction n using Nat.strong_induction_on with
  | _ n ih =>
    rw [natChars_unfold]
    split
    next h =>
      show digitsVal [Nat.digitChar n] = n
      simp [digitsVal, digitChar_toNat n h]
    next h =>
      rw [digitsVal_append, ih (n / 10) (Nat.div_lt_self (by omega) (by omega)),
        digitChar_toNat (n % 10) (Nat.mod_lt _ (by omega))]
      omega

theorem usTail_of_digits (l : List Char) (h : ∀ c ∈ l, c.isDigit = true) :
    usTail l = true := by
  induction l with
  | nil => rfl
  | cons c rest ih =>
    have hc := h c (by simp)
    rcases rest with _ | ⟨d, rest⟩
    · exact hc
    · rw [usTail]
      simp only [hc, if_true]
      exact ih (fun c hc => h c (by simp [hc]))

theorem usNum_natChars (n : Nat) : usNum (natChars n) = true := by
  rcases hl : natChars n with _ | ⟨c, rest⟩
  · exact absurd hl (natChars_ne_nil n)
  · have hd := natChars_digits n
    rw [hl] at hd
    rw [usNum]
    simp only [hd c (by simp), Bool.true_and]
    exact usTail_of_digits rest (fun c hc => hd c (by simp [hc]))

theorem filter_no_underscore_natChars (n : Nat) :
    (natChars n).filter (· ≠ '_') = natChars n := by
  apply List.filter_eq_self.2
  intro c hc
  have := (digit_ne_special (natChars_digits n c hc)).2.2.2
  simp [this]

theorem pyNat?_natChars (n : Nat) : pyNat? (natChars n) = some n := by
  rw [pyNat?, usNum_natChars n, if_pos rfl, filter_no_underscore_natChars,
    digitsVal_natChars]

theorem intCore?_natChars (n : Nat) : intCore? (natChars n) = some (n : Int) := by
  rcases hl : natChars n with _ | ⟨c, rest⟩
  · exact absurd hl (natChars_ne_nil n)
  · have hd : c.isDigit = true := by
      have := natChars_digits n c (by rw [hl]; simp)
      exact this
    have hspec := digit_ne_special hd
    rw [intCore?]
    simp only [hspec.2.1, if_false, hspec.2.2.1, if_false]
    rw [← hl, pyNat?_natChars n]
    rfl

theorem intCore?_intChars (i : Int) : intCore? (intChars i) = some i := by
  rw [intChars]
  split
  next h =>
    rw [intCore?]
    simp only [if_pos rfl]
    rw [pyNat?_natChars]
    show some (-(((-i).toNat : Nat) : Int)) = some i
    congr 1
    omega
  next h =>
    rw [intCore?_natChars]
    congr 1
    omega

theorem char_eq_of_toNat {c1 c2 : Char} (h : c1.toNat = c2.toNat) : c1 = c2 :=
  Char.eq_of_val_eq (UInt32.ext h)

theorem isDigit_toNat_bounds {c : Char} (h : c.isDigit = true) :
    48 ≤ c.toNat ∧ c.toNat ≤ 57 := by
  simp only [Char.isDigit, Bool.and_eq_true, decide_eq_true_eq] at h
  exact h

theorem dropWhile_id {p : Char → Bool} {l : List Char}
    (h : ∀ c ∈ l, p c = false) : l.dropWhile p = l := by
  cases l with
  | nil => rfl
  | cons c r => simp [List.dropWhile_cons, h c (by simp)]

theorem pyStrip_id {l : List Char} (h : ∀ c ∈ l, isPySpace c = false) :
    pyStrip l = l := by
  rw [pyStrip, dropWhile_id h,
    dropWhile_id (fun c hc => h c (List.mem_reverse.1 hc)),
    List.reverse_reverse]

theorem isPySpace_of_digit {c : Char} (h : c.isDigit = true) :
    isPySpace c = false := by
  have hb := isDigit_toNat_bounds h
  rw [isPySpace]
  simp only [Bool.or_eq_false_iff, decide_eq_false_iff_not]
  omega

theorem decDigit?_ascii {c : Char} (h : c.isDigit = true) :
    decDigit? c = some (c.toNat - 48) := by
  rw [decDigit?, if_pos h]

theorem decMap_digit {c : Char} (h : c.isDigit = true) : decMap c = c := by
  have hb := isDigit_toNat_bounds h
  have h2 : decMap c = Nat.digitChar (c.toNat - 48) := by
    rw [decMap, decDigit?_ascii h]
  rw [h2]
  exact char_eq_of_toNat (by rw [digitChar_toNat _ (by omega)]; omega)

theorem map_decMap_id {l : List Char} (h : ∀ c ∈ l, decMap c = c) :
    l.map decMap = l := by
  induction l with
  | nil => rfl
  | cons c r ih =>
    rw [List.map_cons, h c (by simp), ih (fun d hd => h d (by simp [hd]))]

theorem pyInt?_natChars (n : Nat) : pyInt? (natChars n) = some (n : Int) := by
  rw [pyInt?,
    pyStrip_id (fun c hc => isPySpace_of_digit (natChars_digits n c hc)),
    map_decMap_id (fun c hc => decMap_digit (natChars_digits n c hc)),
    intCore?_natChars]

theorem intChars_chars (i : Int) : ∀ c ∈ intChars i,
    c = '-' ∨ c.isDigit = true := by
  intro c hc
  rw [intChars] at hc
  split at hc
  · rcases List.mem_cons.1 hc with h | h
    · exact Or.inl h
    · exact Or.inr (natChars_digits _ c h)
  · exact Or.inr (natChars_digits _ c hc)

theorem pyInt?_intChars (i : Int) : pyInt? (intChars i) = some i := by
  rw [pyInt?,
    pyStrip_id (fun c hc => by
      rcases intChars_chars i c hc with h | h
      · rw [h]; decide
      · exact isPySpace_of_digit h),
    map_decMap_id (fun c hc => by
      rcases intChars_chars i c hc with h | h
      · rw [h]; decide
      · exact decMap_digit h),
    intCore?_intChars]

theorem intChars_no_colon (i : Int) : ':' ∉ intChars i := by
  rw [intChars]
  have hn : ∀ n : Nat, ':' ∉ natChars n := by
    intro n hmem
    exact absurd rfl (digit_ne_special (natChars_digits n ':' hmem)).1
  split
  · intro hmem
    rcases List.mem_cons.1 hmem with h | h
    · exact absurd h.symm (by decide)
    · exact hn _ h
  · exact hn _

/-! ### Python `str.split(":")` on character lists -/

/-- Model of Python `s.split(":")`: splits at every colon, keeping empty
pieces, and returns `[""]` on the empty string. -/
def splitOnColon : List Char → List (List Char)
  | [] => [[]]
  | c :: rest =>
    match splitOnColon rest with
    | [] => [[]]
    | p :: ps => if c = ':' then [] :: p :: ps else (c :: p) :: ps

theorem splitOnColon_ne_nil (l : List Char) : splitOnColon l ≠ [] := by
  induction l with
  | nil => simp [splitOnColon]
  | cons c rest ih =>
    rw [splitOnColon]
    rcases h : splitOnColon rest with _ | ⟨p, ps⟩
    · exact absurd h ih
    · show (if c = ':' then [] :: p :: ps else (c :: p) :: ps) ≠ []
      by_cases hc : c = ':' <;> simp [hc]

theorem splitOnColon_no_colon (l : List Char) (h : ':' ∉ l) :
    splitOnColon l = [l] := by
  induction l with
  | nil => rfl
  | cons c rest ih =>
    have hc : c ≠ ':' := fun he => h (by simp [he])
    have hrest : ':' ∉ rest := fun hm => h (by simp [hm])
    rw [splitOnColon, ih hrest]
    simp [hc]

theorem splitOnColon_append (a b : List Char) (ha : ':' ∉ a) :
    splitOnColon (a ++ ':' :: b) = a :: splitOnColon b := by
  induction a with
  | nil =>
    rw [List.nil_append, splitOnColon]
    rcases h : splitOnColon b with _ | ⟨p, ps⟩
    · exact absurd h (splitOnColon_ne_nil b)
    · simp
  | cons c a ih =>
    have hc : c ≠ ':' := fun he => ha (by simp [he])
    have ha' : ':' ∉ a := fun hm => ha (by simp [hm])
    rw [List.cons_append, splitOnColon, ih ha']
    simp [hc]

theorem splitOnColon_length (l : List Char) :
    (splitOnColon l).length = l.count ':' + 1 := by
  induction l with
  | nil => rfl
  | cons c rest ih =>
    rw [splitOnColon]
    rcases h : splitOnColon rest with _ | ⟨p, ps⟩
    · exact absurd h (splitOnColon_ne_nil rest)
    · rw [h] at ih
      by_cases hc : c = ':'
      · subst hc
        simp only [if_pos rfl, List.length_cons, List.count_cons_self]
        simp at ih ⊢
        omega
      · simp only [if_neg hc, List.length_cons]
        rw [List.count_cons_of_ne (Ne.symm hc)]
        simpa using ih

/-! ### The state-token codec (`src/shared/utils.py`) -/

/-- The four rejection modes of `validate_state_token`; each corresponds to one
`HTTPException(400, ...)` raised by the source. -/
inductive TokenError where
  | malformed
  | expired
  | tooOld
  | invalidSig
deriving DecidableEq, Repr

/-- The colon-joined MAC input `f"{timestamp}:{expires_at}:{nonce}"`, extended
with `f":{extra_data}"` exactly when `extra_data` is truthy — shared by
`generate_state_token` (the signed payload) and `validate_state_token` (the
recomputed payload). -/
def stateMessage (t e : Int) (nonce : Str) (extra : Option Str) : Str :=
  intChars t ++ ':' :: (intChars e ++ ':' :: (nonce ++
    (if truthyOpt extra then ':' :: extra.getD [] else [])))

/-- `generate_state_token` from `src/shared/utils.py`. `mac` stands for
`base64.urlsafe_b64encode(hmac.new(SECRET, ·, sha256).digest())` with the
process-wide secret baked in; `now` for `int(time.time())`; `nonce` for the
sampled `secrets.token_urlsafe(8)`. The token rebuilt by the final f-string
equals the signed payload followed by `":" + signature`. -/
def generate_state_token (mac : Str → Str) (now ttl : Int) (nonce : Str)
    (extra : Option Str) : Str :=
  stateMessage now (now + ttl) nonce extra ++
    ':' :: mac (stateMessage now (now + ttl) nonce extra)

/-- The fields recovered by the parsing phase of `validate_state_token`. -/
structure ParsedToken where
  ts : Int
  ex : Int
  nonce : Str
  extra : Option Str
  sig : Str
deriving Repr

/-- Field-count dispatch and `int(...)` conversion of `validate_state_token`:
4 parts mean no payload, 5 parts mean a payload; anything else, or a
non-integer timestamp field, is a malformed token. -/
def parseParts : List Str → Option ParsedToken
  | [tss, exs, n, s] =>
    match pyInt? tss, pyInt? exs with
    | some t, some e => some ⟨t, e, n, none, s⟩
    | _, _ => none
  | [tss, exs, n, x, s] =>
    match pyInt? tss, pyInt? exs with
    | some t, some e => some ⟨t, e, n, some x, s⟩
    | _, _ => none
  | _ => none

/-- `validate_state_token` from `src/shared/utils.py`: split on colons, parse
the integer fields, reject expired tokens, tokens older than `max_age`, and
signature mismatches (in that order), else return the payload field. -/
def validate_state_token (mac : Str → Str) (now max_age : Int) (tok : Str) :
    Except TokenError (Option Str) :=
  match parseParts (splitOnColon tok) with
  | none => .error .malformed
  | some p =>
    if now > p.ex then .error .expired
    else if max_age < |now - p.ts| then .error .tooOld
    else if p.sig = mac (stateMessage p.ts p.ex p.nonce p.extra) then .ok p.extra
    else .error .invalidSig

/-! ### Splitting generated tokens back into fields -/

theorem splitOnColon_fields4 (a b c d : List Char)
    (ha : ':' ∉ a) (hb : ':' ∉ b) (hc : ':' ∉ c) (hd : ':' ∉ d) :
    splitOnColon (a ++ ':' :: (b ++ ':' :: (c ++ ':' :: d))) = [a, b, c, d] := by
  rw [splitOnColon_append _ _ ha, splitOnColon_append _ _ hb,
    splitOnColon_append _ _ hc, splitOnColon_no_colon _ hd]

theorem splitOnColon_fields5 (a b c d e : List Char)
    (ha : ':' ∉ a) (hb : ':' ∉ b) (hc : ':' ∉ c) (hd : ':' ∉ d) (he : ':' ∉ e) :
    splitOnColon (a ++ ':' :: (b ++ ':' :: (c ++ ':' :: (d ++ ':' :: e)))) =
      [a, b, c, d, e] := by
  rw [splitOnColon_append _ _ ha, splitOnColon_append _ _ hb,
    splitOnColon_append _ _ hc, splitOnColon_append _ _ hd,
    splitOnColon_no_colon _ he]

theorem stateMessage_no_extra (t e : Int) (nonce : Str) (extra : Option Str)
    (hextra : truthyOpt extra = false) :
    stateMessage t e nonce extra =
      intChars t ++ ':' :: (intChars e ++ ':' :: nonce) := by
  rw [stateMessage, hextra]
  simp

theorem stateMessage_extra (t e : Int) (nonce p : Str) (hp : p ≠ []) :
    stateMessage t e nonce (some p) =
      intChars t ++ ':' :: (intChars e ++ ':' :: (nonce ++ ':' :: p)) := by
  have ht : truthyOpt (some p) = true := by simp [truthyOpt, hp]
  rw [stateMessage, ht]
  simp

theorem generate_split_no_extra (mac : Str → Str) (now ttl : Int) (nonce : Str)
    (extra : Option Str) (hextra : truthyOpt extra = false) (hn : ':' ∉ nonce)
    (hs : ':' ∉ mac (stateMessage now (now + ttl) nonce extra)) :
    splitOnColon (generate_state_token mac now ttl nonce extra) =
      [intChars now, intChars (now + ttl), nonce,
        mac (stateMessage now (now + ttl) nonce extra)] := by
  have hm := stateMessage_no_extra now (now + ttl) nonce extra hextra
  rw [hm] at hs
  rw [generate_state_token, hm]
  simp only [List.append_assoc, List.cons_append]
  exact splitOnColon_fields4 _ _ _ _ (intChars_no_colon now)
    (intChars_no_colon (now + ttl)) hn hs

theorem generate_split_extra (mac : Str → Str) (now ttl : Int) (nonce p : Str)
    (hp : p ≠ []) (hpc : ':' ∉ p) (hn : ':' ∉ nonce)
    (hs : ':' ∉ mac (stateMessage now (now + ttl) nonce (some p))) :
    splitOnColon (generate_state_token mac now ttl nonce (some p)) =
      [intChars now, intChars (now + ttl), nonce, p,
        mac (stateMessage now (now + ttl) nonce (some p))] := by
  have hm := stateMessage_extra now (now + ttl) nonce p hp
  rw [hm] at hs
  rw [generate_state_token, hm]
  simp only [List.append_assoc, List.cons_append]
  exact splitOnColon_fields5 _ _ _ _ _ (intChars_no_colon now)
    (intChars_no_colon (now + ttl)) hn hpc hs

/-! ### Reducing `validate_state_token` on well-formed splits -/

theorem validate_of_split4 (mac : Str → Str) (now max_age : Int) (tok : Str)
    (t e : Int) (n s : Str)
    (hsplit : splitOnColon tok = [intChars t, intChars e, n, s]) :
    validate_state_token mac now max_age tok =
      (if now > e then .error .expired
       else if max_age < |now - t| then .error .tooOld
       else if s = mac (stateMessage t e n none) then .ok none
       else .error .invalidSig) := by
  rw [validate_state_token, hsplit]
  simp only [parseParts, pyInt?_intChars]

theorem validate_of_split5 (mac : Str → Str) (now max_age : Int) (tok : Str)
    (t e : Int) (n x s : Str)
    (hsplit : splitOnColon tok = [intChars t, intChars e, n, x, s]) :
    validate_state_token mac now max_age tok =
      (if now > e then .error .expired
       else if max_age < |now - t| then .error .tooOld
       else if s = mac (stateMessage t e n (some x)) then .ok (some x)
       else .error .invalidSig) := by
  rw [validate_state_token, hsplit]
  simp only [parseParts, pyInt?_intChars]

/-- C1 (amended): validating a token immediately after generating it, with the
same secret and clock, returns exactly the supplied payload (`none` when the
payload was absent), provided the ttl and max_age are nonnegative, the payload
is colon-free and non-empty when present, and the nonce and encoded signature
are colon-free (as `secrets.token_urlsafe` and url-safe base64 guarantee). -/
theorem c1_roundtrip_amended (mac : Str → Str) (now ttl max_age : Int)
    (nonce : Str) (extra : Option Str)
    (httl : 0 ≤ ttl) (hage : 0 ≤ max_age) (hn : ':' ∉ nonce)
    (hx : ∀ p, extra = some p → ':' ∉ p ∧ p ≠ [])
    (hs : ':' ∉ mac (stateMessage now (now + ttl) nonce extra)) :
    validate_state_token mac now max_age
      (generate_state_token mac now ttl nonce extra) = .ok extra := by
  rcases extra with _ | p
  · have hsplit := generate_split_no_extra mac now ttl nonce none rfl hn hs
    rw [validate_of_split4 mac now max_age _ now (now + ttl) nonce _ hsplit,
      if_neg (by omega), if_neg (by rw [sub_self, abs_zero]; omega), if_pos rfl]
  · obtain ⟨hpc, hp⟩ := hx p rfl
    have hsplit := generate_split_extra mac now ttl nonce p hp hpc hn hs
    rw [validate_of_split5 mac now max_age _ now (now + ttl) nonce p _ hsplit,
      if_neg (by omega), if_neg (by rw [sub_self, abs_zero]; omega), if_pos rfl]

/-- C1 (counterexample): the claim quantifies over *every* payload string, but
a payload containing a colon shifts the field count to six, so immediate
validation rejects the fresh token as malformed instead of returning the
payload. -/
theorem c1_colon_payload_cex :
    validate_state_token (fun _ => ['S']) 1000 300
        (generate_state_token (fun _ => ['S']) 1000 300 ['N']
          (some ['a', ':', 'b'])) = .error .malformed ∧
    (Except.error TokenError.malformed : Except TokenError (Option Str)) ≠
      .ok (some ['a', ':', 'b']) := by
  constructor
  · rfl
  · intro h
    exact Except.noConfusion h

theorem c1_roundtrip_amended_witness :
    (0 : Int) ≤ 1 ∧ (0 : Int) ≤ 0 ∧ ':' ∉ (['N'] : Str) ∧
    ':' ∉ (fun (_ : Str) => ['S']) (stateMessage 5 (5 + 1) ['N'] (some ['x'])) ∧
    validate_state_token (fun _ => ['S']) 5 0
      (generate_state_token (fun _ => ['S']) 5 1 ['N'] (some ['x'])) =
        .ok (some ['x']) :=
  ⟨by decide, by decide, by decide, by decide,
    c1_roundtrip_amended (fun _ => ['S']) 5 1 0 ['N'] (some ['x'])
      (by decide) (by decide) (by decide)
      (fun p hp => by cases hp; exact ⟨by decide, by decide⟩) (by decide)⟩

/-- C5 (amended): on a token that parses, the expiry comparison runs first:
`now > expires_at` always yields `expired`, and the issue-age bound yields
`tooOld` exactly when the token is *not* already expired — the expiry check
precedes (and therefore supersedes) the age check in the source. -/
theorem c5_freshness_amended (mac : Str → Str) (now max_age : Int) (tok : Str)
    (p : ParsedToken) (hp : parseParts (splitOnColon tok) = some p) :
    (now > p.ex → validate_state_token mac now max_age tok = .error .expired) ∧
    (now ≤ p.ex → max_age < |now - p.ts| →
      validate_state_token mac now max_age tok = .error .tooOld) := by
  constructor
  · intro h
    rw [validate_state_token, hp]
    show (if now > p.ex then (Except.error TokenError.expired : Except TokenError (Option Str))
        else if max_age < |now - p.ts| then .error .tooOld
        else if p.sig = mac (stateMessage p.ts p.ex p.nonce p.extra) then .ok p.extra
        else .error .invalidSig) = .error .expired
    rw [if_pos h]
  · intro h1 h2
    rw [validate_state_token, hp]
    show (if now > p.ex then (Except.error TokenError.expired : Except TokenError (Option Str))
        else if max_age < |now - p.ts| then .error .tooOld
        else if p.sig = mac (stateMessage p.ts p.ex p.nonce p.extra) then .ok p.extra
        else .error .invalidSig) = .error .tooOld
    rw [if_neg (by omega), if_pos h2]

/-- C5 (counterexample): a token that is simultaneously past `expires_at` and
older than `max_age` fails with `expired`, not `tooOld`, so "fails with
TokenTooOld whenever |now - issued_at| > max_age" does not hold as stated. -/
theorem c5_expired_wins_cex :
    (300 : Int) < |2000 - 10| ∧ (2000 : Int) > 20 ∧
    validate_state_token (fun _ => ['S']) 2000 300
      ['1', '0', ':', '2', '0', ':', 'N', ':', 'S'] = .error .expired ∧
    (Except.error TokenError.expired : Except TokenError (Option Str)) ≠
      .error .tooOld := by
  refine ⟨by decide, by decide, rfl, ?_⟩
  intro h
  have := Except.error.inj h
  exact TokenError.noConfusion this

theorem c5_freshness_amended_witness :
    parseParts (splitOnColon ['1', '0', ':', '2', '0', ':', 'N', ':', 'S']) =
      some ⟨10, 20, ['N'], none, ['S']⟩ ∧
    validate_state_token (fun _ => ['S']) 2000 300
      ['1', '0', ':', '2', '0', ':', 'N', ':', 'S'] = .error .expired ∧
    validate_state_token (fun _ => ['S']) 15 2
      ['1', '0', ':', '2', '0', ':', 'N', ':', 'S'] = .error .tooOld :=
  ⟨rfl,
    (c5_freshness_amended (fun _ => ['S']) 2000 300
      ['1', '0', ':', '2', '0', ':', 'N', ':', 'S']
      ⟨10, 20, ['N'], none, ['S']⟩ rfl).1 (by decide),
    (c5_freshness_amended (fun _ => ['S']) 15 2
      ['1', '0', ':', '2', '0', ':', 'N', ':', 'S']
      ⟨10, 20, ['N'], none, ['S']⟩ rfl).2 (by decide) (by decide)⟩

/-- `parseParts` rejects any split with more than five fields. -/
theorem parseParts_none_of_big (ps : List Str) (h : 5 < ps.length) :
    parseParts ps = none := by
  rcases ps with _ | ⟨a, _ | ⟨b, _ | ⟨c, _ | ⟨d, _ | ⟨e, _ | ⟨f, r⟩⟩⟩⟩⟩⟩ <;>
    first
      | rfl
      | (simp at h)

/-- C9 (confirmed): a truthy payload containing a colon makes the generated
token split into more than five colon-delimited fields, and
`validate_state_token` then rejects it as a malformed token instead of
returning the payload. -/
theorem c9_colon_fragility (mac : Str → Str) (now ttl max_age : Int)
    (nonce x : Str) (hn : ':' ∉ nonce) (hx : ':' ∈ x) :
    5 < (splitOnColon (generate_state_token mac now ttl nonce (some x))).length ∧
    validate_state_token mac now max_age
      (generate_state_token mac now ttl nonce (some x)) = .error .malformed := by
  have hp : x ≠ [] := by rintro rfl; simp at hx
  have hcx : 0 < x.count ':' := List.count_pos_iff.2 hx
  have h1 : (intChars now).count ':' = 0 :=
    List.count_eq_zero.2 (intChars_no_colon now)
  have h2 : (intChars (now + ttl)).count ':' = 0 :=
    List.count_eq_zero.2 (intChars_no_colon (now + ttl))
  have hn0 : nonce.count ':' = 0 := List.count_eq_zero.2 hn
  have hlen : 5 <
      (splitOnColon (generate_state_token mac now ttl nonce (some x))).length := by
    rw [splitOnColon_length, generate_state_token,
      stateMessage_extra now (now + ttl) nonce x hp]
    simp only [List.count_append, List.count_cons_self, h1, h2, hn0]
    omega
  exact ⟨hlen, by
    rw [validate_state_token, parseParts_none_of_big _ hlen]⟩

theorem c9_colon_fragility_witness :
    ':' ∉ (['N'] : Str) ∧ ':' ∈ (['a', ':', 'b'] : Str) ∧
    (5 < (splitOnColon (generate_state_token (fun _ => ['S']) 1000 300 ['N']
      (some ['a', ':', 'b']))).length ∧
    validate_state_token (fun _ => ['S']) 1000 300
      (generate_state_token (fun _ => ['S']) 1000 300 ['N']
        (some ['a', ':', 'b'])) = .error .malformed) :=
  ⟨by decide, by decide,
    c9_colon_fragility (fun _ => ['S']) 1000 300 300 ['N'] ['a', ':', 'b']
      (by decide) (by decide)⟩

/-! ### Tamper evidence for the signed message -/

theorem colonFree_append_inj (a : List Char) : ∀ (c b d : List Char),
    ':' ∉ a → ':' ∉ c → a ++ ':' :: b = c ++ ':' :: d → a = c ∧ b = d := by
  induction a with
  | nil =>
    intro c b d _ hc h
    rcases c with _ | ⟨y, c'⟩
    · simpa using h
    · rw [List.nil_append, List.cons_append] at h
      have hy := (List.cons.inj h).1
      exact absurd (by simp [← hy]) hc
  | cons x a' ih =>
    intro c b d ha hc h
    rcases c with _ | ⟨y, c'⟩
    · rw [List.cons_append, List.nil_append] at h
      have hx := (List.cons.inj h).1
      exact absurd (by simp [hx]) ha
    · rw [List.cons_append, List.cons_append] at h
      obtain ⟨hxy, htail⟩ := List.cons.inj h
      obtain ⟨h1, h2⟩ := ih c' b d (fun hm => ha (by simp [hm]))
        (fun hm => hc (by simp [hm])) htail
      exact ⟨by rw [hxy, h1], h2⟩

theorem stateMessage_fields_inj (t e : Int) (n n' : Str) (x x' : Option Str)
    (hn : ':' ∉ n) (hn' : ':' ∉ n')
    (hshape : (x = none ∧ x' = none) ∨
      ∃ p p', x = some p ∧ x' = some p' ∧ p ≠ [] ∧ p' ≠ [] ∧ ':' ∉ p ∧ ':' ∉ p')
    (h : stateMessage t e n' x' = stateMessage t e n x) : n' = n ∧ x' = x := by
  rcases hshape with ⟨hx, hx'⟩ | ⟨p, p', hx, hx', hp, hp', hpc, hpc'⟩
  · subst hx
    subst hx'
    rw [stateMessage_no_extra t e n' none rfl,
      stateMessage_no_extra t e n none rfl] at h
    have h1 := (List.cons.inj (List.append_cancel_left h)).2
    have h2 := (List.cons.inj (List.append_cancel_left h1)).2
    exact ⟨h2, rfl⟩
  · subst hx
    subst hx'
    rw [stateMessage_extra _ _ _ _ hp, stateMessage_extra _ _ _ _ hp'] at h
    have h1 := (List.cons.inj (List.append_cancel_left h)).2
    have h2 := (List.cons.inj (List.append_cancel_left h1)).2
    obtain ⟨hne, hpe⟩ := colonFree_append_inj n' n p' p hn' hn h2
    exact ⟨hne, by rw [hpe]⟩

/-- C2 (counterexamples): the fresh token `100:400:N:S` with its first
timestamp character tampered from `1` to `9` fails the *age* check, not the
signature check: `validate_state_token` reports `tooOld`, not
`invalidSignature`, refuting "fails with InvalidSignature" for tampering of
timestamp fields. Worse, tampering the same character to the Arabic-Indic
digit `١` — a different character that `int()` also reads as 1 — is
*accepted*: the timestamp re-parses to the same integer, the re-serialized
ASCII message matches the original signature, and the payload is returned,
refuting "tampering always fails" outright. -/
theorem c2_timestamp_tamper_cex :
    generate_state_token (fun _ => ['S']) 100 300 ['N'] none =
      ['1', '0', '0', ':', '4', '0', '0', ':', 'N', ':', 'S'] ∧
    validate_state_token (fun _ => ['S']) 100 300
      ['9', '0', '0', ':', '4', '0', '0', ':', 'N', ':', 'S'] = .error .tooOld ∧
    (Except.error TokenError.tooOld : Except TokenError (Option Str)) ≠
      .error .invalidSig ∧
    ('١' : Char) ≠ '1' ∧
    validate_state_token (fun _ => ['S']) 100 300
      ['١', '0', '0', ':', '4', '0', '0', ':', 'N', ':', 'S'] = .ok none := by
  refine ⟨rfl, rfl, ?_, by decide, rfl⟩
  intro h
  exact TokenError.noConfusion (Except.error.inj h)

/-! ### The encrypted token store (`src/shared/tokens.py`)

The sqlite table `tokens(key PRIMARY KEY, value, type)` is modelled as an
association list kept duplicate-free by the upsert; `fernet.encrypt` /
`fernet.decrypt` are the `enc` / `dec` parameters (decryption returns `none`
exactly when the Python call would raise `InvalidToken`). -/

/-- One row of the `tokens` table; `value` holds the Fernet ciphertext. -/
structure TokenRow where
  key : Str
  value : Str
  ttype : Str
deriving DecidableEq, Repr

abbrev TokenDB := List TokenRow

/-- `INSERT OR REPLACE INTO tokens` keyed on the primary key. -/
def tokensUpsert (db : TokenDB) (k v t : Str) : TokenDB :=
  ⟨k, v, t⟩ :: db.filter (fun r => !(r.key == k))

/-- `SELECT ... FROM tokens WHERE key = ?` (unique by primary key). -/
def tokensLookup (db : TokenDB) (k : Str) : Option TokenRow :=
  db.find? (fun r => r.key == k)

/-- The uncaught exception of `TokenStorage.get_token`: `fernet.decrypt`
raising `InvalidToken` on a corrupted record. -/
inductive TokenStoreError where
  | decryptFailure
deriving DecidableEq, Repr

/-- `TokenStorage.store_token` (successful path): encrypt, then upsert. -/
def TokenStorage.store_token (enc : Str → Str) (db : TokenDB) (k v t : Str) :
    TokenDB :=
  tokensUpsert db k (enc v) t

/-- `TokenStorage.get_token`: look up by key, return `none` when absent,
decrypt otherwise; a decryption failure propagates (is never swallowed). -/
def TokenStorage.get_token (dec : Str → Option Str) (db : TokenDB) (k : Str) :
    Except TokenStoreError (Option Str) :=
  match tokensLookup db k with
  | none => .ok none
  | some r =>
    match dec r.value with
    | some v => .ok (some v)
    | none => .error .decryptFailure

/-- C6 (confirmed): reading a key right after storing it returns the stored
plaintext unchanged (given that decryption inverts encryption, as Fernet
guarantees); reading an absent key returns `none`, not an error; and a stored
ciphertext corrupted so that authenticated decryption fails (Fernet rejects
any altered byte) makes the read fail instead of returning any plaintext. -/
theorem c6_store_roundtrip (enc : Str → Str) (dec : Str → Option Str)
    (db : TokenDB) (k k' kc v t tc : Str) (c : Str)
    (hdec : dec (enc v) = some v)
    (habsent : tokensLookup db k' = none)
    (hbad : dec c = none) :
    TokenStorage.get_token dec (TokenStorage.store_token enc db k v t) k =
      .ok (some v) ∧
    TokenStorage.get_token dec db k' = .ok none ∧
    TokenStorage.get_token dec (tokensUpsert db kc c tc) kc =
      .error .decryptFailure := by
  refine ⟨?_, ?_, ?_⟩
  · simp [TokenStorage.get_token, TokenStorage.store_token, tokensUpsert,
      tokensLookup, hdec]
  · rw [TokenStorage.get_token, habsent]
  · simp [TokenStorage.get_token, tokensUpsert, tokensLookup, hbad]

theorem c6_store_roundtrip_witness :
    (some ['v'] : Option Str) = some ['v'] ∧
    tokensLookup [] ['k'] = none ∧
    (none : Option Str) = none ∧
    (TokenStorage.get_token (fun s => if s.head? = some 'E' then some s.tail else none)
      (TokenStorage.store_token (fun v => 'E' :: v) [] ['k'] ['v'] ['t']) ['k'] =
        .ok (some ['v']) ∧
    TokenStorage.get_token (fun s => if s.head? = some 'E' then some s.tail else none)
      [] ['k'] = .ok none ∧
    TokenStorage.get_token (fun s => if s.head? = some 'E' then some s.tail else none)
      (tokensUpsert [] ['k'] ['Z'] ['t']) ['k'] = .error .decryptFailure) :=
  ⟨rfl, rfl, rfl,
    c6_store_roundtrip (fun v => 'E' :: v)
      (fun s => if s.head? = some 'E' then some s.tail else none)
      [] ['k'] ['k'] ['k'] ['v'] ['t'] ['t'] ['Z'] (by decide) rfl (by decide)⟩

/-! ### The retry loop of `store_token` / `store_uuid`

`for _ in range(3): try: <write>; return except OperationalError as e:
if "database is locked" in str(e): time.sleep(0.1) else: raise`, then a final
raise. The i-th write attempt's outcome is the parameter `attempt i`; sleeps
are recorded in milliseconds. -/

/-- Outcome of one sqlite write attempt. -/
inductive AttemptOutcome where
  | success
  | locked
  | failure
deriving DecidableEq, Repr

/-- Result of the whole store call. -/
inductive RetryResult where
  | completed
  | contention
  | propagated
deriving DecidableEq, Repr

/-- The bounded retry loop shared by `TokenStorage.store_token` and
`SessionStorage.store_uuid`: up to `fuel` attempts starting at index `i`;
a locked error sleeps 100 ms and retries, any other error propagates at once,
and exhausting the loop raises the "write failed after retries" error. -/
def storeRetryLoop (attempt : Nat → AttemptOutcome) : Nat → Nat →
    RetryResult × List Nat
  | _, 0 => (.contention, [])
  | i, fuel + 1 =>
    match attempt i with
    | .success => (.completed, [])
    | .failure => (.propagated, [])
    | .locked =>
      let r := storeRetryLoop attempt (i + 1) fuel
      (r.1, 100 :: r.2)

/-- The retry behaviour of one store call: `range(3)` attempts. -/
def store_token_attempts (attempt : Nat → AttemptOutcome) :
    RetryResult × List Nat :=
  storeRetryLoop attempt 0 3

/-- C7 (counterexample): under persistent lock contention the loop performs
exactly three attempts separated by a *constant* 100 ms sleep — the recorded
backoff `[100, 100, 100]` is not (strictly increasing) exponential backoff. -/
theorem c7_constant_backoff_cex :
    store_token_attempts (fun _ => .locked) = (.contention, [100, 100, 100]) ∧
    ¬ List.Chain' (· < ·) [100, 100, 100] := by
  exact ⟨rfl, by simp [List.chain'_cons]⟩

/-- C7 (amended): on persistent write contention the store call makes exactly
3 attempts with a constant 100 ms sleep after each failed one and then fails
with the contention error; a non-contention storage error on the first attempt
propagates immediately, with no retry and no sleep. -/
theorem c7_retry_amended (attempt attempt2 : Nat → AttemptOutcome)
    (hlock : ∀ i, i < 3 → attempt i = .locked)
    (hfail : attempt2 0 = .failure) :
    store_token_attempts attempt = (.contention, [100, 100, 100]) ∧
    store_token_attempts attempt2 = (.propagated, []) := by
  constructor
  · rw [store_token_attempts, storeRetryLoop, hlock 0 (by omega),
      storeRetryLoop, hlock 1 (by omega), storeRetryLoop, hlock 2 (by omega),
      storeRetryLoop]
  · rw [store_token_attempts, storeRetryLoop, hfail]

theorem c7_retry_amended_witness :
    (∀ i : Nat, i < 3 → (fun _ => AttemptOutcome.locked) i = .locked) ∧
    (fun _ => AttemptOutcome.failure) 0 = .failure ∧
    (store_token_attempts (fun _ => .locked) = (.contention, [100, 100, 100]) ∧
      store_token_attempts (fun _ => .failure) = (.propagated, [])) :=
  ⟨fun _ _ => rfl, rfl,
    c7_retry_amended (fun _ => .locked) (fun _ => .failure)
      (fun _ _ => rfl) rfl⟩

/-! ### The session store (`src/shared/sessions.py`)

The sqlite table `sessions(session_id PRIMARY KEY, uuid, created_at)` stores
the Fernet-encrypted tenant uuid; `enc` / `dec` are the Fernet parameters as
for the token store. Python truthiness checks (`if session_id:`,
`if user_uuid:`, `if expected_uuid ...`) are modelled with `truthyOpt`. -/

/-- One row of the `sessions` table; `uuidEnc` holds the encrypted uuid. -/
structure SessionRow where
  sid : Str
  uuidEnc : Str
  createdAt : Int
deriving DecidableEq, Repr

abbrev SessionDB := List SessionRow

/-- Failure modes of the session operations: the three
`HTTPException(400, ...)` of `verify_session`, plus the uncaught
`fernet.decrypt` failure inside `get_uuid`. -/
inductive SessionError where
  | missingSession
  | invalidSession
  | mismatchedSession
  | decryptFailure
deriving DecidableEq, Repr

/-- `INSERT OR REPLACE INTO sessions` keyed on the primary key. -/
def sessionsUpsert (db : SessionDB) (sid v : Str) (createdAt : Int) :
    SessionDB :=
  ⟨sid, v, createdAt⟩ :: db.filter (fun r => !(r.sid == sid))

/-- `SELECT uuid FROM sessions WHERE session_id = ?`. -/
def sessionsLookup (db : SessionDB) (sid : Str) : Option SessionRow :=
  db.find? (fun r => r.sid == sid)

/-- `SessionStorage.store_uuid` (successful path): encrypt, then upsert with
the current time. Its retry control flow is `storeRetryLoop`. -/
def SessionStorage.store_uuid (enc : Str → Str) (db : SessionDB)
    (sid u : Str) (now : Int) : SessionDB :=
  sessionsUpsert db sid (enc u) now

/-- `SessionStorage.get_uuid`: `none` when the session id is absent, the
decrypted uuid otherwise; decryption failure propagates. -/
def SessionStorage.get_uuid (dec : Str → Option Str) (db : SessionDB)
    (sid : Str) : Except SessionError (Option Str) :=
  match sessionsLookup db sid with
  | none => .ok none
  | some r =>
    match dec r.uuidEnc with
    | some u => .ok (some u)
    | none => .error .decryptFailure

/-- `SessionStorage.clear_session`: `DELETE FROM sessions WHERE
session_id = ?`. -/
def SessionStorage.clear_session (db : SessionDB) (sid : Str) : SessionDB :=
  db.filter (fun r => !(r.sid == sid))

/-- `SessionStorage.get_or_create_session`: resolve a truthy cookie to a
uuid; when it resolves (to a truthy uuid), delete the old row and bind a
fresh session id (`freshSid`, from `secrets.token_urlsafe(32)`) to the same
uuid; otherwise mint a fresh tenant uuid (`freshUuid`, from `uuid.uuid4()`)
under a fresh session id. Returns `(new_session_id, user_uuid)` and the
updated table. -/
def SessionStorage.get_or_create_session (enc : Str → Str)
    (dec : Str → Option Str) (db : SessionDB) (sidOpt : Option Str)
    (freshSid freshUuid : Str) (now : Int) :
    Except SessionError (Str × Str × SessionDB) :=
  match
    (match sidOpt with
     | some sid =>
       if sid.isEmpty then Except.ok none
       else SessionStorage.get_uuid dec db sid
     | none => Except.ok none : Except SessionError (Option Str)) with
  | .error e => .error e
  | .ok uuidOpt =>
    if truthyOpt uuidOpt then
      let sid := sidOpt.getD []
      let db1 := SessionStorage.clear_session db sid
      let db2 := SessionStorage.store_uuid enc db1 freshSid (uuidOpt.getD []) now
      .ok (freshSid, uuidOpt.getD [], db2)
    else
      let db2 := SessionStorage.store_uuid enc db freshSid freshUuid now
      .ok (freshSid, freshUuid, db2)

/-- `SessionStorage.verify_session`: missing cookie, unresolvable cookie, and
expected-uuid mismatch each raise; the mismatch check is skipped when the
expected uuid is falsy (`if expected_uuid and user_uuid != expected_uuid`). -/
def SessionStorage.verify_session (dec : Str → Option Str) (db : SessionDB)
    (sidOpt expectedOpt : Option Str) : Except SessionError Str :=
  if !truthyOpt sidOpt then .error .missingSession
  else
    match SessionStorage.get_uuid dec db (sidOpt.getD []) with
    | .error e => .error e
    | .ok uuidOpt =>
      if !truthyOpt uuidOpt then .error .invalidSession
      else if truthyOpt expectedOpt && !(uuidOpt.getD [] == expectedOpt.getD [])
        then .error .mismatchedSession
      else .ok (uuidOpt.getD [])

theorem sessionsLookup_upsert_self (db : SessionDB) (sid v : Str) (now : Int) :
    sessionsLookup (sessionsUpsert db sid v now) sid = some ⟨sid, v, now⟩ := by
  simp [sessionsLookup, sessionsUpsert]

theorem sessionsLookup_rotate_old (db : SessionDB) (sid freshSid v : Str)
    (now : Int) (h : freshSid ≠ sid) :
    sessionsLookup
      (sessionsUpsert (SessionStorage.clear_session db sid) freshSid v now)
      sid = none := by
  apply List.find?_eq_none.2
  intro r hr
  rcases List.mem_cons.1 hr with he | hr'
  · subst he
    simpa using h
  · have hmem := (List.mem_filter.1 hr').1
    have := (List.mem_filter.1 hmem).2
    simpa using this

theorem sessionsLookup_clear_self (db : SessionDB) (sid : Str) :
    sessionsLookup (SessionStorage.clear_session db sid) sid = none := by
  apply List.find?_eq_none.2
  intro r hr
  have := (List.mem_filter.1 hr).2
  simpa using this

/-- C3 (confirmed): `get_or_create_session(None)` succeeds and binds a fresh
session id to the freshly minted tenant uuid; called with a previously issued
(non-empty, resolvable) session id it returns a different session id (the
freshly generated one) bound to the *same* uuid; and the old session id then
fails `verify_session` with the invalid-session error, its row having been
deleted by the rotation. Freshness of the generated id
(`secrets.token_urlsafe(32)` not colliding) is the hypothesis `hfresh`. -/
theorem c3_session_rotation (enc : Str → Str) (dec : Str → Option Str)
    (db : SessionDB) (sid freshSid freshUuid u : Str) (now : Int)
    (hd1 : dec (enc freshUuid) = some freshUuid)
    (hsid : sid ≠ [])
    (hres : SessionStorage.get_uuid dec db sid = .ok (some u))
    (hu : u ≠ [])
    (hfresh : freshSid ≠ sid) :
    (SessionStorage.get_or_create_session enc dec db none freshSid freshUuid now
        = .ok (freshSid, freshUuid,
            SessionStorage.store_uuid enc db freshSid freshUuid now) ∧
      SessionStorage.get_uuid dec
        (SessionStorage.store_uuid enc db freshSid freshUuid now) freshSid =
          .ok (some freshUuid)) ∧
    (SessionStorage.get_or_create_session enc dec db (some sid) freshSid
        freshUuid now
        = .ok (freshSid, u, SessionStorage.store_uuid enc
            (SessionStorage.clear_session db sid) freshSid u now) ∧
      freshSid ≠ sid ∧
      SessionStorage.verify_session dec
        (SessionStorage.store_uuid enc
          (SessionStorage.clear_session db sid) freshSid u now)
        (some sid) none = .error .invalidSession) := by
  have hempty : sid.isEmpty = false := by
    cases sid
    · exact absurd rfl hsid
    · rfl
  have huE : u.isEmpty = false := by
    cases u
    · exact absurd rfl hu
    · rfl
  refine ⟨⟨rfl, ?_⟩, ?_, hfresh, ?_⟩
  · simp [SessionStorage.get_uuid, SessionStorage.store_uuid,
      sessionsLookup_upsert_self, hd1]
  · simp [SessionStorage.get_or_create_session, hempty, hres, truthyOpt, huE]
  · have hrot := sessionsLookup_rotate_old db sid freshSid (enc u) now hfresh
    simp [SessionStorage.verify_session, truthyOpt, hempty,
      SessionStorage.get_uuid, SessionStorage.store_uuid, hrot]

theorem c3_session_rotation_witness :
    ((fun s : Str => if s.head? = some 'E' then some s.tail else none)
        ((fun v : Str => 'E' :: v) ['w']) = some ['w']) ∧
    (['s'] : Str) ≠ [] ∧
    SessionStorage.get_uuid
      (fun s => if s.head? = some 'E' then some s.tail else none)
      [⟨['s'], 'E' :: ['u'], 0⟩] ['s'] = .ok (some ['u']) ∧
    (['u'] : Str) ≠ [] ∧ (['f'] : Str) ≠ ['s'] ∧
    ((SessionStorage.get_or_create_session (fun v => 'E' :: v)
        (fun s => if s.head? = some 'E' then some s.tail else none)
        [⟨['s'], 'E' :: ['u'], 0⟩] none ['f'] ['w'] 1
        = .ok (['f'], ['w'], SessionStorage.store_uuid (fun v => 'E' :: v)
            [⟨['s'], 'E' :: ['u'], 0⟩] ['f'] ['w'] 1) ∧
      SessionStorage.get_uuid
        (fun s => if s.head? = some 'E' then some s.tail else none)
        (SessionStorage.store_uuid (fun v => 'E' :: v)
          [⟨['s'], 'E' :: ['u'], 0⟩] ['f'] ['w'] 1) ['f'] = .ok (some ['w'])) ∧
    (SessionStorage.get_or_create_session (fun v => 'E' :: v)
        (fun s => if s.head? = some 'E' then some s.tail else none)
        [⟨['s'], 'E' :: ['u'], 0⟩] (some ['s']) ['f'] ['w'] 1
        = .ok (['f'], ['u'], SessionStorage.store_uuid (fun v => 'E' :: v)
            (SessionStorage.clear_session [⟨['s'], 'E' :: ['u'], 0⟩] ['s'])
            ['f'] ['u'] 1) ∧
      (['f'] : Str) ≠ ['s'] ∧
      SessionStorage.verify_session
        (fun s => if s.head? = some 'E' then some s.tail else none)
        (SessionStorage.store_uuid (fun v => 'E' :: v)
          (SessionStorage.clear_session [⟨['s'], 'E' :: ['u'], 0⟩] ['s'])
          ['f'] ['u'] 1)
        (some ['s']) none = .error .invalidSession)) :=
  ⟨rfl, by decide, rfl, by decide, by decide,
    c3_session_rotation (fun v => 'E' :: v)
      (fun s => if s.head? = some 'E' then some s.tail else none)
      [⟨['s'], 'E' :: ['u'], 0⟩] ['s'] ['f'] ['w'] ['u'] 1
      rfl (by decide) rfl (by decide) (by decide)⟩

/-- C10 (confirmed): `verify_session` with an empty-string expected uuid skips
the mismatch comparison entirely — `if expected_uuid and ...` short-circuits
on the falsy empty string — and returns the resolved uuid, whatever it is,
without raising the mismatched-session error. -/
theorem c10_empty_expected_uuid (dec : Str → Option Str) (db : SessionDB)
    (sid u : Str) (hsid : sid ≠ [])
    (hres : SessionStorage.get_uuid dec db sid = .ok (some u))
    (hu : u ≠ []) :
    SessionStorage.verify_session dec db (some sid) (some []) = .ok u := by
  have hempty : sid.isEmpty = false := by
    cases sid
    · exact absurd rfl hsid
    · rfl
  have huE : u.isEmpty = false := by
    cases u
    · exact absurd rfl hu
    · rfl
  simp [SessionStorage.verify_session, truthyOpt, hempty, hres, huE]

theorem c10_empty_expected_uuid_witness :
    (['s'] : Str) ≠ [] ∧
    SessionStorage.get_uuid
      (fun s => if s.head? = some 'E' then some s.tail else none)
      [⟨['s'], 'E' :: ['u'], 0⟩] ['s'] = .ok (some ['u']) ∧
    (['u'] : Str) ≠ [] ∧
    SessionStorage.verify_session
      (fun s => if s.head? = some 'E' then some s.tail else none)
      [⟨['s'], 'E' :: ['u'], 0⟩] (some ['s']) (some []) = .ok ['u'] :=
  ⟨by decide, rfl, by decide,
    c10_empty_expected_uuid
      (fun s => if s.head? = some 'E' then some s.tail else none)
      [⟨['s'], 'E' :: ['u'], 0⟩] ['s'] ['u'] (by decide) rfl (by decide)⟩

/-! ### Key derivation (`get_fernet_key` in `src/shared/tokens.py`) -/

/-- The crash mode of `get_fernet_key` when `STATE_TOKEN_SECRET` is unset:
`os.getenv` returns `None` and `None.encode()` raises `AttributeError`. -/
inductive FernetKeyError where
  | attributeError
deriving DecidableEq, Repr

/-- `get_fernet_key` from `src/shared/tokens.py`: read `STATE_TOKEN_SECRET`
(no default), derive a key with `PBKDF2HMAC(SHA256, length=32, salt=b'salt_',
iterations=100000)`. `derive len secret` abstracts the PBKDF2 call. The
source performs no emptiness or presence check on the secret: an absent
variable crashes before derivation, any present string (empty included) is
derived from. -/
def get_fernet_key (derive : Nat → Str → List Nat) (env : Option Str) :
    Except FernetKeyError (List Nat) :=
  match env with
  | none => .error .attributeError
  | some secret => .ok (derive 32 secret)

/-- C8 (counterexample): an empty present secret does *not* fail — the
derivation succeeds and returns a key, refuting "fails with ConfigError when
the operator-supplied secret is empty". -/
theorem c8_empty_secret_cex :
    get_fernet_key (fun n _ => List.replicate n 0) (some []) =
      .ok (List.replicate 32 0) ∧
    ∀ e, get_fernet_key (fun n _ => List.replicate n 0) (some []) ≠
      .error e := by
  refine ⟨rfl, ?_⟩
  intro e h
  exact Except.noConfusion h

/-- C8 (amended): an absent secret crashes with an `AttributeError`
(`None.encode()`), not a `ConfigError`; any present secret — the empty string
included — succeeds, returning the PBKDF2-derived key, which is 32 bytes long
by the KDF's `length=32` parameter (hypothesis `hlen`, the PBKDF2 contract). -/
theorem c8_key_derivation_amended (derive : Nat → Str → List Nat)
    (env : Option Str) (hlen : ∀ s, (derive 32 s).length = 32) :
    (env = none → get_fernet_key derive env = .error .attributeError) ∧
    (∀ s, env = some s → get_fernet_key derive env = .ok (derive 32 s) ∧
      (derive 32 s).length = 32) := by
  constructor
  · rintro rfl
    rfl
  · rintro s rfl
    exact ⟨rfl, hlen s⟩

theorem c8_key_derivation_amended_witness :
    (∀ s : Str, ((fun (n : Nat) (_ : Str) => List.replicate n 0) 32 s).length = 32) ∧
    get_fernet_key (fun n _ => List.replicate n 0) none =
      .error .attributeError ∧
    (get_fernet_key (fun n _ => List.replicate n 0) (some []) =
        .ok (List.replicate 32 0) ∧
      (List.replicate (32 : Nat) (0 : Nat)).length = 32) :=
  ⟨fun _ => by simp,
    (c8_key_derivation_amended (fun n _ => List.replicate n 0) none
      (fun _ => by simp)).1 rfl,
    (c8_key_derivation_amended (fun n _ => List.replicate n 0) (some [])
      (fun _ => by simp)).2 [] rfl⟩

/-! ### JSON documents and `json.dumps(..., ensure_ascii=False, sort_keys=True)`

The sync-dedup gate (`src/digitalocean_integration/spaces.py` together with
`compute_data_hash` in `src/shared/utils.py`) hashes the canonical
serialization of a JSON document. JSON values are modelled as a mutual
inductive (numbers as integers — the synced documents carry ids and counts);
`json.dumps` with `sort_keys=True` is modelled as plain serialization after
recursively sorting every object's fields by key, which produces the same
string. -/

mutual
inductive Json where
  | null : Json
  | bool : Bool → Json
  | num : Int → Json
  | str : Str → Json
  | arr : JsonList → Json
  | obj : JsonFields → Json
deriving Repr
inductive JsonList where
  | nil : JsonList
  | cons : Json → JsonList → JsonList
deriving Repr
inductive JsonFields where
  | nil : JsonFields
  | cons : Str → Json → JsonFields → JsonFields
deriving Repr
end

/-- The named short escapes of the JSON encoder: quote, backslash, and the
five control characters with one-letter escapes. -/
def escKey (c : Char) : Option Char :=
  if c = '"' then some '"'
  else if c = '\\' then some '\\'
  else if c.toNat = 8 then some 'b'
  else if c.toNat = 9 then some 't'
  else if c.toNat = 10 then some 'n'
  else if c.toNat = 12 then some 'f'
  else if c.toNat = 13 then some 'r'
  else none

/-- How `json.dumps(..., ensure_ascii=False)` renders one string character:
named escapes, `\u00XX` (lowercase hex) for the remaining control characters,
and everything else — non-ASCII included — verbatim. -/
def escChar (c : Char) : List Char :=
  match escKey c with
  | some k => ['\\', k]
  | none =>
    if 32 ≤ c.toNat then [c]
    else ['\\', 'u', '0', '0',
      Nat.digitChar (c.toNat / 16), Nat.digitChar (c.toNat % 16)]

/-- Escape a whole string body. -/
def escStr (s : Str) : Str := s.foldr (fun c acc => escChar c ++ acc) []

/-- A JSON string literal: quoted, escaped body. -/
def quoteStr (s : Str) : Str := '"' :: (escStr s ++ ['"'])

/-- The rendering of `null`. -/
def litNull : Str := ['n', 'u', 'l', 'l']

/-- The rendering of `True`. -/
def litTrue : Str := ['t', 'r', 'u', 'e']

/-- The rendering of `False`. -/
def litFalse : Str := ['f', 'a', 'l', 's', 'e']

mutual
/-- Serialize one JSON value the way `json.dumps` does with its default
separators `", "` and `": "`. -/
def serialJson : Json → Str
  | .null => litNull
  | .bool b => if b then litTrue else litFalse
  | .num i => intChars i
  | .str s => quoteStr s
  | .arr vs => '[' :: (serialArrBody vs ++ [']'])
  | .obj fs => '\x7b' :: (serialObjBody fs ++ ['\x7d'])
def serialArrBody : JsonList → Str
  | .nil => []
  | .cons v vs => serialJson v ++ serialArrTail vs
def serialArrTail : JsonList → Str
  | .nil => []
  | .cons v vs => ',' :: ' ' :: (serialJson v ++ serialArrTail vs)
def serialObjBody : JsonFields → Str
  | .nil => []
  | .cons k v fs => quoteStr k ++ ':' :: ' ' :: (serialJson v ++ serialObjTail fs)
def serialObjTail : JsonFields → Str
  | .nil => []
  | .cons k v fs =>
    ',' :: ' ' :: (quoteStr k ++ ':' :: ' ' :: (serialJson v ++ serialObjTail fs))
end

/-- Python string comparison (`sorted` on `dict` keys): lexicographic by code
point. -/
def keyLe (x y : Str) : Bool :=
  match x, y with
  | [], _ => true
  | _, [] => false
  | c :: cs, d :: ds =>
    if c.toNat < d.toNat then true
    else if d.toNat < c.toNat then false
    else keyLe cs ds

/-- Insert a field into a key-sorted field list. -/
def insertField (k : Str) (v : Json) : JsonFields → JsonFields
  | .nil => .cons k v .nil
  | .cons k' v' fs =>
    if keyLe k k' then .cons k v (.cons k' v' fs)
    else .cons k' v' (insertField k v fs)

mutual
/-- Recursively sort every object's fields by key — the normalization
`sort_keys=True` applies while serializing. -/
def sortJson : Json → Json
  | .null => .null
  | .bool b => .bool b
  | .num i => .num i
  | .str s => .str s
  | .arr vs => .arr (sortJsonList vs)
  | .obj fs => .obj (sortJsonFields fs)
def sortJsonList : JsonList → JsonList
  | .nil => .nil
  | .cons v vs => .cons (sortJson v) (sortJsonList vs)
def sortJsonFields : JsonFields → JsonFields
  | .nil => .nil
  | .cons k v fs => insertField k (sortJson v) (sortJsonFields fs)
end

/-- `json.dumps(data, ensure_ascii=False, sort_keys=True)` as used by
`compute_data_hash`. -/
def json_dumps_canonical (v : Json) : Str := serialJson (sortJson v)

/-- `compute_data_hash` from `src/shared/utils.py`; `hash` stands for
`hashlib.sha256(...).hexdigest()` on the UTF-8 serialization. -/
def compute_data_hash (hash : Str → Str) (v : Json) : Str :=
  hash (json_dumps_canonical v)

/-- Outcome of the `s3_client.get_object` call inside `has_data_changed`. -/
inductive FetchResult where
  | found : Json → FetchResult
  | noSuchKey : FetchResult
  | clientError : FetchResult

/-- The `HTTPException(500, ...)` raised by `has_data_changed` on storage
errors other than a missing key. -/
inductive SpacesError where
  | httpError
deriving DecidableEq, Repr

/-- `has_data_changed` from `src/digitalocean_integration/spaces.py`: hash the
candidate, fetch the stored object, treat a missing key as changed, any other
client error as fatal, and otherwise compare the two canonical hashes. -/
def has_data_changed (hash : Str → Str) (data : Json) (fetch : FetchResult) :
    Except SpacesError Bool :=
  match fetch with
  | .found prev =>
    .ok (!(compute_data_hash hash prev == compute_data_hash hash data))
  | .noSuchKey => .ok true
  | .clientError => .error .httpError

/-! ### Unambiguity of the serializer -/

/-- Continuations after a serialized number never start with a digit. -/
def noDigitHead (l : List Char) : Prop :=
  ∀ c, l.head? = some c → c.isDigit = false

theorem noDigitHead_nil : noDigitHead [] := by
  intro c hc
  simp at hc

theorem noDigitHead_cons {c : Char} {t : List Char} (h : c.isDigit = false) :
    noDigitHead (c :: t) := by
  intro c' hc'
  simp only [List.head?] at hc'
  cases hc'
  exact h

theorem digitRun_unamb (a : List Char) : ∀ (b r s : List Char),
    (∀ c ∈ a, c.isDigit = true) → (∀ c ∈ b, c.isDigit = true) →
    noDigitHead r → noDigitHead s → a ++ r = b ++ s → a = b ∧ r = s := by
  induction a with
  | nil =>
    intro b r s _ hb hr _ h
    rcases b with _ | ⟨c2, b'⟩
    · exact ⟨rfl, by simpa using h⟩
    · exfalso
      rw [List.nil_append, List.cons_append] at h
      have hc2 : r.head? = some c2 := by rw [h]; rfl
      have h1 := hr c2 hc2
      have h2 := hb c2 (by simp)
      rw [h1] at h2
      exact Bool.noConfusion h2
  | cons c1 a' ih =>
    intro b r s ha hb hr hs h
    rcases b with _ | ⟨c2, b'⟩
    · exfalso
      rw [List.nil_append, List.cons_append] at h
      have hc1 : s.head? = some c1 := by rw [← h]; rfl
      have h1 := hs c1 hc1
      have h2 := ha c1 (by simp)
      rw [h1] at h2
      exact Bool.noConfusion h2
    · rw [List.cons_append, List.cons_append] at h
      obtain ⟨h1, h2⟩ := List.cons.inj h
      obtain ⟨h3, h4⟩ := ih b' r s (fun c hc => ha c (by simp [hc]))
        (fun c hc => hb c (by simp [hc])) hr hs h2
      exact ⟨by rw [h1, h3], h4⟩

theorem natChars_inj (m n : Nat) (h : natChars m = natChars n) : m = n := by
  have hm := digitsVal_natChars m
  rw [h, digitsVal_natChars n] at hm
  exact hm.symm

theorem intChars_head (i : Int) :
    ∃ c t, intChars i = c :: t ∧ (c = '-' ∨ c.isDigit = true) := by
  rw [intChars]
  split
  · exact ⟨'-', _, rfl, Or.inl rfl⟩
  · rcases hl : natChars i.toNat with _ | ⟨c, t⟩
    · exact absurd hl (natChars_ne_nil _)
    · exact ⟨c, t, rfl, Or.inr (natChars_digits _ c (by rw [hl]; simp))⟩

theorem intChars_unamb (i j : Int) (r s : List Char)
    (hr : noDigitHead r) (hs : noDigitHead s)
    (h : intChars i ++ r = intChars j ++ s) : i = j ∧ r = s := by
  rw [intChars, intChars] at h
  split at h <;> split at h
  next hi hj =>
    rw [List.cons_append, List.cons_append] at h
    obtain ⟨-, h2⟩ := List.cons.inj h
    obtain ⟨h3, h4⟩ := digitRun_unamb _ _ _ _ (natChars_digits _)
      (natChars_digits _) hr hs h2
    have := natChars_inj _ _ h3
    exact ⟨by omega, h4⟩
  next hi hj =>
    exfalso
    rcases hl : natChars j.toNat with _ | ⟨c, t⟩
    · exact absurd hl (natChars_ne_nil _)
    · rw [hl, List.cons_append, List.cons_append] at h
      have hc := (List.cons.inj h).1
      have := natChars_digits j.toNat c (by rw [hl]; simp)
      rw [← hc] at this
      exact absurd this (by decide)
  next hi hj =>
    exfalso
    rcases hl : natChars i.toNat with _ | ⟨c, t⟩
    · exact absurd hl (natChars_ne_nil _)
    · rw [hl, List.cons_append, List.cons_append] at h
      have hc := (List.cons.inj h).1
      have := natChars_digits i.toNat c (by rw [hl]; simp)
      rw [hc] at this
      exact absurd this (by decide)
  next hi hj =>
    obtain ⟨h3, h4⟩ := digitRun_unamb _ _ _ _ (natChars_digits _)
      (natChars_digits _) hr hs h
    have := natChars_inj _ _ h3
    exact ⟨by omega, h4⟩


theorem escKey_spec (c k : Char) (h : escKey c = some k) :
    (k = '"' ∧ c = '"') ∨ (k = '\\' ∧ c = '\\') ∨ (k = 'b' ∧ c.toNat = 8) ∨
    (k = 't' ∧ c.toNat = 9) ∨ (k = 'n' ∧ c.toNat = 10) ∨
    (k = 'f' ∧ c.toNat = 12) ∨ (k = 'r' ∧ c.toNat = 13) := by
  unfold escKey at h
  split_ifs at h with h1 h2 h3 h4 h5 h6 h7 <;> (injection h with h) <;> subst h
  · exact Or.inl ⟨rfl, h1⟩
  · exact Or.inr (Or.inl ⟨rfl, h2⟩)
  · exact Or.inr (Or.inr (Or.inl ⟨rfl, h3⟩))
  · exact Or.inr (Or.inr (Or.inr (Or.inl ⟨rfl, h4⟩)))
  · exact Or.inr (Or.inr (Or.inr (Or.inr (Or.inl ⟨rfl, h5⟩))))
  · exact Or.inr (Or.inr (Or.inr (Or.inr (Or.inr (Or.inl ⟨rfl, h6⟩)))))
  · exact Or.inr (Or.inr (Or.inr (Or.inr (Or.inr (Or.inr ⟨rfl, h7⟩)))))

theorem escKey_inj (c1 c2 k : Char) (h1 : escKey c1 = some k)
    (h2 : escKey c2 = some k) : c1 = c2 := by
  rcases escKey_spec c1 k h1 with
    ⟨hk, hc⟩ | ⟨hk, hc⟩ | ⟨hk, hc⟩ | ⟨hk, hc⟩ | ⟨hk, hc⟩ | ⟨hk, hc⟩ | ⟨hk, hc⟩ <;>
  subst hk <;>
  rcases escKey_spec c2 _ h2 with
    ⟨hk2, hc2⟩ | ⟨hk2, hc2⟩ | ⟨hk2, hc2⟩ | ⟨hk2, hc2⟩ | ⟨hk2, hc2⟩ | ⟨hk2, hc2⟩ |
      ⟨hk2, hc2⟩ <;>
  first
    | (exact absurd hk2 (by decide))
    | (subst hc; subst hc2; rfl)
    | (exact char_eq_of_toNat (by rw [hc, hc2]))

theorem escKey_mem (c k : Char) (h : escKey c = some k) :
    k = '"' ∨ k = '\\' ∨ k = 'b' ∨ k = 't' ∨ k = 'n' ∨ k = 'f' ∨ k = 'r' := by
  rcases escKey_spec c k h with
    ⟨hk, -⟩ | ⟨hk, -⟩ | ⟨hk, -⟩ | ⟨hk, -⟩ | ⟨hk, -⟩ | ⟨hk, -⟩ | ⟨hk, -⟩ <;>
    simp [hk]

theorem escKey_none_facts (c : Char) (h : escKey c = none) :
    c ≠ '"' ∧ c ≠ '\\' := by
  unfold escKey at h
  split_ifs at h with h1 h2
  exact ⟨h1, h2⟩

theorem digitChar_inj16 : ∀ m < 16, ∀ n < 16,
    Nat.digitChar m = Nat.digitChar n → m = n := by decide

theorem escChar_shape (c : Char) :
    (∃ k, escChar c = ['\\', k] ∧ escKey c = some k) ∨
    (escChar c = [c] ∧ escKey c = none ∧ 32 ≤ c.toNat) ∨
    (escChar c = ['\\', 'u', '0', '0', Nat.digitChar (c.toNat / 16),
        Nat.digitChar (c.toNat % 16)] ∧ escKey c = none ∧ c.toNat < 32) := by
  unfold escChar
  rcases hk : escKey c with _ | k
  · by_cases h32 : 32 ≤ c.toNat
    · exact Or.inr (Or.inl ⟨by rw [if_pos h32], rfl, h32⟩)
    · exact Or.inr (Or.inr ⟨by rw [if_neg h32], rfl, by omega⟩)
  · exact Or.inl ⟨k, rfl, rfl⟩

theorem escChar_head_ne_quote (c : Char) :
    ∃ h t, escChar c = h :: t ∧ h ≠ '"' := by
  rcases escChar_shape c with ⟨k, he, -⟩ | ⟨he, hnone, -⟩ | ⟨he, -, -⟩
  · exact ⟨'\\', _, he, by decide⟩
  · exact ⟨c, [], he, (escKey_none_facts c hnone).1⟩
  · exact ⟨'\\', _, he, by decide⟩

theorem escChar_unamb (c1 c2 : Char) (x y : List Char)
    (h : escChar c1 ++ x = escChar c2 ++ y) : c1 = c2 ∧ x = y := by
  rcases escChar_shape c1 with ⟨k1, he1, hk1⟩ | ⟨he1, hk1, h321⟩ | ⟨he1, hk1, h321⟩ <;>
    rcases escChar_shape c2 with ⟨k2, he2, hk2⟩ | ⟨he2, hk2, h322⟩ | ⟨he2, hk2, h322⟩ <;>
    rw [he1, he2] at h
  · -- named vs named
    obtain ⟨-, h2⟩ := List.cons.inj h
    obtain ⟨hkk, hxy⟩ := List.cons.inj h2
    subst hkk
    exact ⟨escKey_inj c1 c2 k1 hk1 hk2, hxy⟩
  · -- named vs plain
    exfalso
    have := (List.cons.inj h).1
    exact (escKey_none_facts c2 hk2).2 (by rw [← this])
  · -- named vs u-escape: second characters k1 vs 'u'
    exfalso
    have h2 := (List.cons.inj (List.cons.inj h).2).1
    rcases escKey_mem c1 k1 hk1 with hk | hk | hk | hk | hk | hk | hk <;>
      (rw [hk] at h2; exact absurd h2 (by decide))
  · -- plain vs named
    exfalso
    have := (List.cons.inj h).1
    exact (escKey_none_facts c1 hk1).2 (by rw [this])
  · -- plain vs plain
    obtain ⟨hc, hxy⟩ := List.cons.inj h
    exact ⟨hc, hxy⟩
  · -- plain vs u-escape
    exfalso
    have := (List.cons.inj h).1
    exact (escKey_none_facts c1 hk1).2 (by rw [this])
  · -- u-escape vs named
    exfalso
    have h2 := (List.cons.inj (List.cons.inj h).2).1
    rcases escKey_mem c2 k2 hk2 with hk | hk | hk | hk | hk | hk | hk <;>
      (rw [hk] at h2; exact absurd h2 (by decide))
  · -- u-escape vs plain
    exfalso
    have := (List.cons.inj h).1
    exact (escKey_none_facts c2 hk2).2 (by rw [← this])
  · -- u-escape vs u-escape
    obtain ⟨-, h2⟩ := List.cons.inj h
    obtain ⟨-, h3⟩ := List.cons.inj h2
    obtain ⟨-, h4⟩ := List.cons.inj h3
    obtain ⟨-, h5⟩ := List.cons.inj h4
    obtain ⟨hdiv, h6⟩ := List.cons.inj h5
    obtain ⟨hmod, hxy⟩ := List.cons.inj h6
    have hd := digitChar_inj16 (c1.toNat / 16) (by omega) (c2.toNat / 16)
      (by omega) hdiv
    have hm := digitChar_inj16 (c1.toNat % 16) (by omega) (c2.toNat % 16)
      (by omega) hmod
    exact ⟨char_eq_of_toNat (by omega), hxy⟩

theorem escStr_nil : escStr [] = [] := rfl

theorem escStr_cons (c : Char) (s : Str) :
    escStr (c :: s) = escChar c ++ escStr s := rfl

theorem escStr_unamb (a : Str) : ∀ (b : Str) (r s : List Char),
    escStr a ++ '"' :: r = escStr b ++ '"' :: s → a = b ∧ r = s := by
  induction a with
  | nil =>
    intro b r s h
    rcases b with _ | ⟨c2, b'⟩
    · exact ⟨rfl, by simpa using h⟩
    · exfalso
      rw [escStr_nil, escStr_cons, List.nil_append, List.append_assoc] at h
      obtain ⟨h2, t2, he2, hne⟩ := escChar_head_ne_quote c2
      rw [he2, List.cons_append] at h
      exact hne ((List.cons.inj h).1).symm
  | cons c1 a' ih =>
    intro b r s h
    rcases b with _ | ⟨c2, b'⟩
    · exfalso
      rw [escStr_nil, escStr_cons, List.nil_append, List.append_assoc] at h
      obtain ⟨h1, t1, he1, hne⟩ := escChar_head_ne_quote c1
      rw [he1, List.cons_append] at h
      exact hne (List.cons.inj h).1
    · rw [escStr_cons, escStr_cons, List.append_assoc, List.append_assoc] at h
      obtain ⟨hc, htail⟩ := escChar_unamb c1 c2 _ _ h
      obtain ⟨hab, hrs⟩ := ih b' r s htail
      exact ⟨by rw [hc, hab], hrs⟩

theorem quoteStr_unamb (a b : Str) (r s : List Char)
    (h : quoteStr a ++ r = quoteStr b ++ s) : a = b ∧ r = s := by
  rw [quoteStr, quoteStr, List.cons_append, List.cons_append,
    List.append_assoc, List.append_assoc] at h
  have h2 := (List.cons.inj h).2
  exact escStr_unamb a b r s (by simpa using h2)

theorem digit_ne_seps {c : Char} (h : c.isDigit = true) :
    c ≠ ']' ∧ c ≠ ',' ∧ c ≠ '\x7d' := by
  refine ⟨?_, ?_, ?_⟩ <;> (intro he; subst he; simp [Char.isDigit] at h)

theorem serialJson_head_not_sep (v : Json) :
    ∃ c t, serialJson v = c :: t ∧ c ≠ ']' ∧ c ≠ ',' ∧ c ≠ '\x7d' := by
  cases v with
  | null => exact ⟨'n', _, rfl, by decide, by decide, by decide⟩
  | bool b =>
    cases b
    · exact ⟨'f', _, rfl, by decide, by decide, by decide⟩
    · exact ⟨'t', _, rfl, by decide, by decide, by decide⟩
  | num i =>
    obtain ⟨c, t, hct, hc⟩ := intChars_head i
    refine ⟨c, t, hct, ?_⟩
    rcases hc with h1 | h1
    · subst h1
      exact ⟨by decide, by decide, by decide⟩
    · exact digit_ne_seps h1
  | str s => exact ⟨'"', _, rfl, by decide, by decide, by decide⟩
  | arr vs => exact ⟨'[', _, rfl, by decide, by decide, by decide⟩
  | obj fs => exact ⟨'\x7b', _, rfl, by decide, by decide, by decide⟩

theorem serialArrTail_ctx (vs : JsonList) (r : List Char) :
    noDigitHead (serialArrTail vs ++ ']' :: r) := by
  cases vs
  · exact noDigitHead_cons (by decide)
  · exact noDigitHead_cons (by decide)

theorem serialObjTail_ctx (fs : JsonFields) (r : List Char) :
    noDigitHead (serialObjTail fs ++ '\x7d' :: r) := by
  cases fs
  · exact noDigitHead_cons (by decide)
  · exact noDigitHead_cons (by decide)

theorem num_head_clash (i : Int) (c : Char) (hc : c ≠ '-' ∧ c.isDigit = false)
    (x y : List Char) (h : intChars i ++ x = c :: y) : False := by
  obtain ⟨c', t', hct, hc'⟩ := intChars_head i
  rw [hct, List.cons_append] at h
  have he := (List.cons.inj h).1
  subst he
  rcases hc' with h1 | h1
  · exact hc.1 h1
  · rw [hc.2] at h1
    exact Bool.noConfusion h1

mutual

theorem serialJson_unamb (v w : Json) (r s : List Char)
    (hr : noDigitHead r) (hs : noDigitHead s)
    (h : serialJson v ++ r = serialJson w ++ s) : v = w ∧ r = s := by
  cases v with
  | null =>
    cases w with
    | null => exact ⟨rfl, by simpa using h⟩
    | bool b => cases b <;> simp [serialJson, litNull, litTrue, litFalse] at h
    | num i => exact absurd h.symm (fun h2 =>
        num_head_clash i 'n' ⟨by decide, by decide⟩ _ _ h2)
    | str s2 => simp [serialJson, litNull, litTrue, litFalse, quoteStr] at h
    | arr ws => simp [serialJson, litNull, litTrue, litFalse] at h
    | obj gs => simp [serialJson, litNull, litTrue, litFalse] at h
  | bool b =>
    cases w with
    | null => cases b <;> simp [serialJson, litNull, litTrue, litFalse] at h
    | bool b2 =>
      cases b <;> cases b2 <;> simp [serialJson, litNull, litTrue, litFalse] at h <;>
        exact ⟨rfl, by simpa using h⟩
    | num i =>
      cases b
      · exact absurd h.symm (fun h2 =>
          num_head_clash i 'f' ⟨by decide, by decide⟩ _ _ h2)
      · exact absurd h.symm (fun h2 =>
          num_head_clash i 't' ⟨by decide, by decide⟩ _ _ h2)
    | str s2 => cases b <;> simp [serialJson, litNull, litTrue, litFalse, quoteStr] at h
    | arr ws => cases b <;> simp [serialJson, litNull, litTrue, litFalse] at h
    | obj gs => cases b <;> simp [serialJson, litNull, litTrue, litFalse] at h
  | num i =>
    cases w with
    | null => exact absurd h (fun h2 =>
        num_head_clash i 'n' ⟨by decide, by decide⟩ _ _ h2)
    | bool b =>
      cases b
      · exact absurd h (fun h2 =>
          num_head_clash i 'f' ⟨by decide, by decide⟩ _ _ h2)
      · exact absurd h (fun h2 =>
          num_head_clash i 't' ⟨by decide, by decide⟩ _ _ h2)
    | num j =>
      simp only [serialJson] at h
      obtain ⟨hij, hrs⟩ := intChars_unamb i j r s hr hs h
      exact ⟨by rw [hij], hrs⟩
    | str s2 => exact absurd h (fun h2 =>
        num_head_clash i '"' ⟨by decide, by decide⟩ _ _ h2)
    | arr ws => exact absurd h (fun h2 =>
        num_head_clash i '[' ⟨by decide, by decide⟩ _ _ h2)
    | obj gs => exact absurd h (fun h2 =>
        num_head_clash i '\x7b' ⟨by decide, by decide⟩ _ _ h2)
  | str s1 =>
    cases w with
    | null => simp [serialJson, litNull, litTrue, litFalse, quoteStr] at h
    | bool b => cases b <;> simp [serialJson, litNull, litTrue, litFalse, quoteStr] at h
    | num i => exact absurd h.symm (fun h2 =>
        num_head_clash i '"' ⟨by decide, by decide⟩ _ _ h2)
    | str s2 =>
      simp only [serialJson] at h
      obtain ⟨hss, hrs⟩ := quoteStr_unamb s1 s2 r s h
      exact ⟨by rw [hss], hrs⟩
    | arr ws => simp [serialJson, litNull, litTrue, litFalse, quoteStr] at h
    | obj gs => simp [serialJson, litNull, litTrue, litFalse, quoteStr] at h
  | arr vs =>
    cases w with
    | null => simp [serialJson, litNull, litTrue, litFalse] at h
    | bool b => cases b <;> simp [serialJson, litNull, litTrue, litFalse] at h
    | num i => exact absurd h.symm (fun h2 =>
        num_head_clash i '[' ⟨by decide, by decide⟩ _ _ h2)
    | str s2 => simp [serialJson, litNull, litTrue, litFalse, quoteStr] at h
    | arr ws =>
      simp only [serialJson, List.cons_append, List.append_assoc] at h
      have h2 := (List.cons.inj h).2
      obtain ⟨hvw, hrs⟩ := serialArrBody_unamb vs ws r s (by simpa using h2)
      exact ⟨by rw [hvw], hrs⟩
    | obj gs => simp [serialJson, litNull, litTrue, litFalse] at h
  | obj fs =>
    cases w with
    | null => simp [serialJson, litNull, litTrue, litFalse] at h
    | bool b => cases b <;> simp [serialJson, litNull, litTrue, litFalse] at h
    | num i => exact absurd h.symm (fun h2 =>
        num_head_clash i '\x7b' ⟨by decide, by decide⟩ _ _ h2)
    | str s2 => simp [serialJson, litNull, litTrue, litFalse, quoteStr] at h
    | arr ws => simp [serialJson, litNull, litTrue, litFalse] at h
    | obj gs =>
      simp only [serialJson, List.cons_append, List.append_assoc] at h
      have h2 := (List.cons.inj h).2
      obtain ⟨hfg, hrs⟩ := serialObjBody_unamb fs gs r s (by simpa using h2)
      exact ⟨by rw [hfg], hrs⟩
termination_by sizeOf v

theorem serialArrBody_unamb (vs ws : JsonList) (r s : List Char)
    (h : serialArrBody vs ++ ']' :: r = serialArrBody ws ++ ']' :: s) :
    vs = ws ∧ r = s := by
  cases vs with
  | nil =>
    cases ws with
    | nil => exact ⟨rfl, by simpa using h⟩
    | cons w ws' =>
      exfalso
      simp only [serialArrBody, List.nil_append, List.append_assoc] at h
      obtain ⟨c, t, hct, hc1, -, -⟩ := serialJson_head_not_sep w
      rw [hct, List.cons_append] at h
      exact hc1 ((List.cons.inj h).1).symm
  | cons v vs' =>
    cases ws with
    | nil =>
      exfalso
      simp only [serialArrBody, List.nil_append, List.append_assoc] at h
      obtain ⟨c, t, hct, hc1, -, -⟩ := serialJson_head_not_sep v
      rw [hct, List.cons_append] at h
      exact hc1 (List.cons.inj h).1
    | cons w ws' =>
      simp only [serialArrBody, List.append_assoc] at h
      obtain ⟨hvw, htail⟩ := serialJson_unamb v w _ _
        (serialArrTail_ctx vs' r) (serialArrTail_ctx ws' s) h
      obtain ⟨hvs, hrs⟩ := serialArrTail_unamb vs' ws' r s htail
      exact ⟨by rw [hvw, hvs], hrs⟩
termination_by sizeOf vs

theorem serialArrTail_unamb (vs ws : JsonList) (r s : List Char)
    (h : serialArrTail vs ++ ']' :: r = serialArrTail ws ++ ']' :: s) :
    vs = ws ∧ r = s := by
  cases vs with
  | nil =>
    cases ws with
    | nil => exact ⟨rfl, by simpa using h⟩
    | cons w ws' => simp [serialArrTail] at h
  | cons v vs' =>
    cases ws with
    | nil => simp [serialArrTail] at h
    | cons w ws' =>
      simp only [serialArrTail, List.cons_append, List.append_assoc] at h
      have h2 := (List.cons.inj (List.cons.inj h).2).2
      obtain ⟨hvw, htail⟩ := serialJson_unamb v w _ _
        (serialArrTail_ctx vs' r) (serialArrTail_ctx ws' s) h2
      obtain ⟨hvs, hrs⟩ := serialArrTail_unamb vs' ws' r s htail
      exact ⟨by rw [hvw, hvs], hrs⟩
termination_by sizeOf vs

theorem serialObjBody_unamb (fs gs : JsonFields) (r s : List Char)
    (h : serialObjBody fs ++ '\x7d' :: r = serialObjBody gs ++ '\x7d' :: s) :
    fs = gs ∧ r = s := by
  cases fs with
  | nil =>
    cases gs with
    | nil => exact ⟨rfl, by simpa using h⟩
    | cons k w gs' => simp [serialObjBody, quoteStr] at h
  | cons k v fs' =>
    cases gs with
    | nil => simp [serialObjBody, quoteStr] at h
    | cons k2 w gs' =>
      simp only [serialObjBody, List.cons_append, List.append_assoc] at h
      obtain ⟨hk, hrest⟩ := quoteStr_unamb k k2 _ _ h
      have h2 := (List.cons.inj (List.cons.inj hrest).2).2
      obtain ⟨hvw, htail⟩ := serialJson_unamb v w _ _
        (serialObjTail_ctx fs' r) (serialObjTail_ctx gs' s) h2
      obtain ⟨hfs, hrs⟩ := serialObjTail_unamb fs' gs' r s htail
      exact ⟨by rw [hk, hvw, hfs], hrs⟩
termination_by sizeOf fs

theorem serialObjTail_unamb (fs gs : JsonFields) (r s : List Char)
    (h : serialObjTail fs ++ '\x7d' :: r = serialObjTail gs ++ '\x7d' :: s) :
    fs = gs ∧ r = s := by
  cases fs with
  | nil =>
    cases gs with
    | nil => exact ⟨rfl, by simpa using h⟩
    | cons k w gs' => simp [serialObjTail] at h
  | cons k v fs' =>
    cases gs with
    | nil => simp [serialObjTail] at h
    | cons k2 w gs' =>
      simp only [serialObjTail, List.cons_append, List.append_assoc] at h
      have h1 := (List.cons.inj (List.cons.inj h).2).2
      obtain ⟨hk, hrest⟩ := quoteStr_unamb k k2 _ _ h1
      have h2 := (List.cons.inj (List.cons.inj hrest).2).2
      obtain ⟨hvw, htail⟩ := serialJson_unamb v w _ _
        (serialObjTail_ctx fs' r) (serialObjTail_ctx gs' s) h2
      obtain ⟨hfs, hrs⟩ := serialObjTail_unamb fs' gs' r s htail
      exact ⟨by rw [hk, hvw, hfs], hrs⟩
termination_by sizeOf fs

end

/-- The canonical serializer is injective. -/
theorem serialJson_inj (v w : Json) (h : serialJson v = serialJson w) :
    v = w :=
  (serialJson_unamb v w [] [] noDigitHead_nil noDigitHead_nil
    (by rw [List.append_nil, List.append_nil, h])).1

/-- C4 (confirmed): `has_data_changed` returns `true` on the first-ever call
for a key (the stored object is absent), and — assuming the content hash does
not collide on the two serializations, as SHA-256 guarantees in practice — it
returns `false` exactly when the candidate and the stored object are
logically identical, i.e. equal after recursively sorting every object's
fields by key (so differing key insertion order does not re-trigger the
write, and any differing field value does). -/
theorem c4_dedup_gate (hash : Str → Str) (data prev : Json)
    (hcol : hash (json_dumps_canonical prev) = hash (json_dumps_canonical data) →
      json_dumps_canonical prev = json_dumps_canonical data) :
    has_data_changed hash data .noSuchKey = .ok true ∧
    (has_data_changed hash data (.found prev) = .ok false ↔
      sortJson prev = sortJson data) := by
  constructor
  · rfl
  · rw [has_data_changed]
    constructor
    · intro h
      have hb := Except.ok.inj h
      have h1 : compute_data_hash hash prev = compute_data_hash hash data := by
        by_contra hne
        have hf : (compute_data_hash hash prev ==
            compute_data_hash hash data) = false := by
          simpa using hne
        rw [hf] at hb
        exact Bool.noConfusion hb
      have h2 := hcol h1
      exact serialJson_inj _ _ h2
    · intro h
      have hd : json_dumps_canonical prev = json_dumps_canonical data := by
        rw [json_dumps_canonical, json_dumps_canonical, h]
      rw [show compute_data_hash hash prev = compute_data_hash hash data by
        rw [compute_data_hash, compute_data_hash, hd]]
      simp

/-- The spec's scenario-C candidate `{"a": 1, "b": 2}`. -/
def sampleDoc : Json :=
  .obj (.cons ['a'] (.num 1) (.cons ['b'] (.num 2) .nil))

/-- The same logical object with the key insertion order reversed. -/
def sampleDocPerm : Json :=
  .obj (.cons ['b'] (.num 2) (.cons ['a'] (.num 1) .nil))

theorem c4_dedup_gate_witness :
    (has_data_changed (fun d => d) sampleDoc .noSuchKey = .ok true ∧
      (has_data_changed (fun d => d) sampleDoc (.found sampleDocPerm) =
          .ok false ↔
        sortJson sampleDocPerm = sortJson sampleDoc)) ∧
    sortJson sampleDocPerm = sortJson sampleDoc ∧
    has_data_changed (fun d => d) sampleDoc (.found sampleDocPerm) =
      .ok false :=
  have hmain := c4_dedup_gate (fun d => d) sampleDoc sampleDocPerm
    (fun hcl => hcl)
  ⟨hmain, rfl, hmain.2.mpr rfl⟩

/-! ### General tamper analysis: any single-character substitution -/

theorem append_singleton_inj {a b : List Char} {x y : Char}
    (h : a ++ [x] = b ++ [y]) : a = b ∧ x = y := by
  have h1 : (a ++ [x]).reverse = (b ++ [y]).reverse := by rw [h]
  simp only [List.reverse_append, List.reverse_cons, List.reverse_nil,
    List.nil_append, List.singleton_append] at h1
  obtain ⟨hxy, hr⟩ := List.cons.inj h1
  exact ⟨by simpa using congrArg List.reverse hr, hxy⟩

theorem splitOnColon_cons (c : Char) (rest p : List Char)
    (ps : List (List Char)) (h : splitOnColon rest = p :: ps) :
    splitOnColon (c :: rest) =
      if c = ':' then [] :: p :: ps else (c :: p) :: ps := by
  rw [splitOnColon, h]

theorem split_before {A : List Char} : ∀ (X R B : List Char) (c : Char),
    X ++ R = A ++ c :: B → A.length < X.length →
    ∃ M, X = A ++ c :: M ∧ B = M ++ R := by
  induction A with
  | nil =>
    intro X R B c h hlen
    rcases X with _ | ⟨x, X'⟩
    · simp at hlen
    · rw [List.cons_append, List.nil_append] at h
      obtain ⟨hx, ht⟩ := List.cons.inj h
      exact ⟨X', by rw [hx]; rfl, ht.symm⟩
  | cons a A' ih =>
    intro X R B c h hlen
    rcases X with _ | ⟨x, X'⟩
    · simp at hlen
    · rw [List.cons_append, List.cons_append] at h
      obtain ⟨hx, ht⟩ := List.cons.inj h
      obtain ⟨M, hM1, hM2⟩ := ih X' R B c ht (by simpa using hlen)
      exact ⟨M, by rw [hx, hM1, List.cons_append], hM2⟩

theorem split_after {X : List Char} : ∀ (R A T : List Char),
    X ++ R = A ++ T → X.length ≤ A.length →
    ∃ D, A = X ++ D ∧ R = D ++ T := by
  induction X with
  | nil =>
    intro R A T h hlen
    exact ⟨A, rfl, by simpa using h⟩
  | cons x X' ih =>
    intro R A T h hlen
    rcases A with _ | ⟨a, A'⟩
    · simp at hlen
    · rw [List.cons_append, List.cons_append] at h
      obtain ⟨hx, ht⟩ := List.cons.inj h
      obtain ⟨D, hD1, hD2⟩ := ih R A' T ht (by simpa using hlen)
      exact ⟨D, by rw [hx, hD1, List.cons_append], hD2⟩

theorem splitOnColon_hom (X Y : List Char) :
    splitOnColon (X ++ ':' :: Y) = splitOnColon X ++ splitOnColon Y := by
  induction X with
  | nil =>
    rcases h : splitOnColon Y with _ | ⟨p, ps⟩
    · exact absurd h (splitOnColon_ne_nil Y)
    · rw [List.nil_append, splitOnColon_cons ':' Y p ps h, if_pos rfl]
      rfl
  | cons x X' ih =>
    rcases h2 : splitOnColon X' with _ | ⟨q, qs⟩
    · exact absurd h2 (splitOnColon_ne_nil X')
    · rcases h3 : splitOnColon (X' ++ ':' :: Y) with _ | ⟨p, ps⟩
      · exact absurd h3 (splitOnColon_ne_nil _)
      · rw [List.cons_append, splitOnColon_cons x (X' ++ ':' :: Y) p ps h3,
          splitOnColon_cons x X' q qs h2]
        have h4 : q :: (qs ++ splitOnColon Y) = p :: ps := by
          rw [← List.cons_append, ← h2, ← ih, h3]
        rcases List.cons.inj h4 with ⟨hpq, hps⟩
        by_cases hx : x = ':'
        · rw [if_pos hx, if_pos hx, ← hpq, ← hps]
          rfl
        · rw [if_neg hx, if_neg hx, ← hpq, ← hps]
          rfl

theorem splitOnColon_parts (l : List Char) :
    ∀ p ∈ splitOnColon l, ':' ∉ p := by
  induction l with
  | nil =>
    intro p hp
    simp only [splitOnColon, List.mem_singleton] at hp
    subst hp
    simp
  | cons c rest ih =>
    intro p hp
    rcases h : splitOnColon rest with _ | ⟨q, qs⟩
    · exact absurd h (splitOnColon_ne_nil rest)
    · rw [h] at ih
      rw [splitOnColon_cons c rest q qs h] at hp
      by_cases hc : c = ':'
      · rw [if_pos hc] at hp
        rcases List.mem_cons.1 hp with he | he
        · subst he
          simp
        · exact ih p he
      · rw [if_neg hc] at hp
        rcases List.mem_cons.1 hp with he | he
        · subst he
          intro hmem
          rcases List.mem_cons.1 hmem with h1 | h1
          · exact hc h1.symm
          · exact ih q (by simp) h1
        · exact ih p (by simp [he])

/-- Rejoin split pieces with colons (the inverse of `splitOnColon`). -/
def joinColon : List (List Char) → List Char
  | [] => []
  | [p] => p
  | p :: q :: ps => p ++ ':' :: joinColon (q :: ps)

theorem joinColon_splitOnColon (l : List Char) :
    joinColon (splitOnColon l) = l := by
  induction l with
  | nil => rfl
  | cons c rest ih =>
    rcases h : splitOnColon rest with _ | ⟨p, ps⟩
    · exact absurd h (splitOnColon_ne_nil rest)
    · rw [h] at ih
      rw [splitOnColon_cons c rest p ps h]
      by_cases hc : c = ':'
      · rw [if_pos hc, joinColon, hc, ih]
        rfl
      · rw [if_neg hc]
        rcases ps with _ | ⟨q, qs⟩
        · rw [joinColon] at ih ⊢
          rw [← ih]
        · rw [joinColon] at ih ⊢
          rw [List.cons_append, ih]


theorem digitsVal_foldl (Y : List Char) : ∀ a : Nat,
    Y.foldl (fun acc ch => 10 * acc + (ch.toNat - 48)) a =
      a * 10 ^ Y.length + digitsVal Y := by
  induction Y with
  | nil =>
    intro a
    simp [digitsVal]
  | cons y Y ih =>
    intro a
    rw [List.foldl_cons, ih]
    have hy : digitsVal (y :: Y) = (y.toNat - 48) * 10 ^ Y.length + digitsVal Y := by
      show List.foldl _ ((fun acc ch => 10 * acc + (ch.toNat - 48)) 0 y) Y = _
      rw [ih]
      ring_nf
    rw [hy, List.length_cons, pow_succ]
    ring

theorem digitsVal_shift (X Y : List Char) :
    digitsVal (X ++ Y) = digitsVal X * 10 ^ Y.length + digitsVal Y := by
  rw [digitsVal, List.foldl_append, digitsVal_foldl]
  rfl

theorem usTail_chars (l : List Char) : usTail l = true →
    ∀ ch ∈ l, ch.isDigit = true ∨ ch = '_' := by
  induction l with
  | nil => simp
  | cons c rest ih =>
    intro h ch hch
    rcases rest with _ | ⟨d, rest'⟩
    · simp only [List.mem_singleton] at hch
      subst hch
      exact Or.inl h
    · rw [usTail] at h
      by_cases hc : c.isDigit
      · rw [if_pos hc] at h
        rcases List.mem_cons.1 hch with he | he
        · subst he
          exact Or.inl hc
        · exact ih h ch he
      · rw [if_neg hc] at h
        by_cases hu : c = '_'
        · rw [if_pos hu] at h
          rw [Bool.and_eq_true] at h
          obtain ⟨-, h2⟩ := h
          rcases List.mem_cons.1 hch with he | he
          · subst he
            exact Or.inr hu
          · exact ih h2 ch he
        · rw [if_neg hu] at h
          exact Bool.noConfusion h

theorem usNum_chars (l : List Char) (h : usNum l = true) :
    ∀ ch ∈ l, ch.isDigit = true ∨ ch = '_' := by
  rcases l with _ | ⟨c, rest⟩
  · simp
  · rw [usNum] at h
    rw [Bool.and_eq_true] at h
    obtain ⟨h1, h2⟩ := h
    intro ch hch
    rcases List.mem_cons.1 hch with he | he
    · subst he
      exact Or.inl h1
    · exact usTail_chars rest h2 ch he

theorem usNum_false_of_bad {l : List Char} {ch : Char} (hm : ch ∈ l)
    (h1 : ch.isDigit = false) (h2 : ch ≠ '_') : usNum l = false := by
  by_contra hcon
  rcases usNum_chars l (by simpa using hcon) ch hm with hd | hd
  · rw [h1] at hd
    exact Bool.noConfusion hd
  · exact h2 hd

theorem pyNat?_eq_some {l : List Char} {v : Nat} (h : pyNat? l = some v) :
    usNum l = true ∧ digitsVal (l.filter (· ≠ '_')) = v := by
  rw [pyNat?] at h
  split at h
  next hn => exact ⟨hn, (Option.some.inj h)⟩
  next => exact Option.noConfusion h

theorem filter_digits {l : List Char} (h : ∀ ch ∈ l, ch.isDigit = true) :
    l.filter (· ≠ '_') = l := by
  apply List.filter_eq_self.2
  intro ch hch
  have := (digit_ne_special (h ch hch)).2.2.2
  simp [this]

theorem usNum_of_digits {l : List Char} (hne : l ≠ [])
    (h : ∀ ch ∈ l, ch.isDigit = true) : usNum l = true := by
  rcases l with _ | ⟨c, rest⟩
  · exact absurd rfl hne
  · rw [usNum, h c (by simp), Bool.true_and]
    exact usTail_of_digits rest (fun ch hch => h ch (by simp [hch]))

theorem intCore?_of_digit_head (ch : Char) (t : List Char) (h : ch.isDigit = true) :
    intCore? (ch :: t) = (pyNat? (ch :: t)).map (fun n => (n : Int)) := by
  have hspec := digit_ne_special h
  rw [intCore?]
  simp only [hspec.2.1, if_false, hspec.2.2.1, if_false]

theorem natChars_head_ne_zero : ∀ m : Nat, 1 ≤ m → ∀ (a : Char) (rest : List Char),
    natChars m = a :: rest → a ≠ '0' := by
  intro m
  induction m using Nat.strong_induction_on with
  | _ m ih =>
    intro hm a rest he
    rw [natChars_unfold] at he
    split at he
    next h10 =>
      obtain ⟨ha, -⟩ := List.cons.inj he
      rw [← ha]
      interval_cases m <;> decide
    next h10 =>
      rcases hsub : natChars (m / 10) with _ | ⟨b, brest⟩
      · exact absurd hsub (natChars_ne_nil _)
      · rw [hsub, List.cons_append] at he
        obtain ⟨hab, -⟩ := List.cons.inj he
        rw [← hab]
        exact ih (m / 10) (Nat.div_lt_self (by omega) (by omega))
          (by omega) b brest hsub

theorem natChars_len_one (m : Nat) (h : m < 10) : natChars m = [Nat.digitChar m] := by
  rw [natChars_unfold, if_pos h]

theorem digitsVal_singleton (c : Char) : digitsVal [c] = c.toNat - 48 := by
  simp [digitsVal]

theorem digitsVal_cons (x : Char) (B : List Char) :
    digitsVal (x :: B) = (x.toNat - 48) * 10 ^ B.length + digitsVal B := by
  show List.foldl _ ((fun acc ch => 10 * acc + (ch.toNat - 48)) 0 x) B = _
  rw [digitsVal_foldl]
  ring_nf

theorem digitsVal_decomp (A B : List Char) (x : Char) :
    digitsVal (A ++ x :: B) = digitsVal A * 10 ^ (B.length + 1) +
      ((x.toNat - 48) * 10 ^ B.length + digitsVal B) := by
  rw [digitsVal_shift A (x :: B), digitsVal_cons, List.length_cons]

theorem digit_of_sub_eq_zero {x : Char} (hd : x.isDigit = true)
    (h : x.toNat - 48 = 0) : x = '0' := by
  have hb := isDigit_toNat_bounds hd
  exact char_eq_of_toNat (by
    show x.toNat = 48
    omega)

theorem pyNat?_none_of_not_usNum {l : List Char} (h : usNum l = false) :
    pyNat? l = none := by
  rw [pyNat?, h]
  rfl

theorem digitsVal_cons_eq_zero {a : Char} {A' : List Char}
    (had : a.isDigit = true) (h : digitsVal (a :: A') = 0) : a = '0' := by
  rw [digitsVal_cons] at h
  have hP : 0 < 10 ^ A'.length := Nat.pos_pow_of_pos _ (by omega)
  apply digit_of_sub_eq_zero had
  have h1 : (a.toNat - 48) * 10 ^ A'.length = 0 := by omega
  rcases Nat.mul_eq_zero.1 h1 with h2 | h2
  · exact h2
  · omega

theorem natChars_zero : natChars 0 = ['0'] := rfl

/-- Substituting one character of a canonical decimal rendering never parses
back to the same value *through the ASCII core*. Note this does not lift to
`pyInt?`: replacing a digit by an equal-valued Unicode homoglyph survives
the normalization step, which is exactly why a tampered timestamp can be
accepted (see the C2 counterexample). -/
theorem dec_subst (m : Nat) (A B : List Char) (c c' : Char)
    (hA : natChars m = A ++ c :: B) (hcc : c ≠ c') :
    intCore? (A ++ c' :: B) ≠ some (m : Int) := by
  intro hpy
  have hdig := natChars_digits m
  rw [hA] at hdig
  have hAdig : ∀ ch ∈ A, ch.isDigit = true := fun ch h => hdig ch (by simp [h])
  have hBdig : ∀ ch ∈ B, ch.isDigit = true := fun ch h => hdig ch (by simp [h])
  have hcdig : c.isDigit = true := hdig c (by simp)
  have hval : digitsVal A * 10 ^ (B.length + 1) +
      ((c.toNat - 48) * 10 ^ B.length + digitsVal B) = m := by
    have hm := digitsVal_natChars m
    rw [hA, digitsVal_decomp] at hm
    exact hm
  have hPpos : 0 < 10 ^ B.length := Nat.pos_pow_of_pos _ (by omega)
  have hm_pos_of_long : A ≠ [] ∨ B ≠ [] → 1 ≤ m := by
    intro hne
    by_contra hm0
    have hz : m = 0 := by omega
    subst hz
    rw [natChars_zero] at hA
    have := congrArg List.length hA
    simp at this
    rcases hne with h1 | h1
    · exact h1 (List.eq_nil_of_length_eq_zero (by omega))
    · exact h1 (List.eq_nil_of_length_eq_zero (by omega))
  by_cases hd : c'.isDigit = true
  · -- digit-for-digit substitution changes the value
    have hldig : ∀ ch ∈ A ++ c' :: B, ch.isDigit = true := by
      intro ch hch
      rcases List.mem_append.1 hch with h1 | h1
      · exact hAdig ch h1
      · rcases List.mem_cons.1 h1 with he | he
        · subst he
          exact hd
        · exact hBdig ch he
    have hhead : ∃ hh tt, A ++ c' :: B = hh :: tt := by
      rcases A with _ | ⟨a, A'⟩
      · exact ⟨c', B, rfl⟩
      · exact ⟨a, A' ++ c' :: B, rfl⟩
    obtain ⟨hh, tt, hht⟩ := hhead
    have hhd : hh.isDigit = true := hldig hh (by rw [hht]; simp)
    rw [hht, intCore?_of_digit_head hh tt hhd, ← hht] at hpy
    have hus := usNum_of_digits (by simp) hldig
    rw [pyNat?, hus, if_pos rfl, filter_digits hldig] at hpy
    have hv : digitsVal (A ++ c' :: B) = m := by
      have h5 := Option.some.inj hpy
      have h6 : ((digitsVal (A ++ c' :: B) : Nat) : Int) = (m : Int) := h5
      exact_mod_cast h6
    rw [digitsVal_decomp, ← hval] at hv
    have h1 := Nat.add_left_cancel hv
    have h2 := Nat.add_right_cancel h1
    have h3 := Nat.eq_of_mul_eq_mul_right hPpos h2
    have hb1 := isDigit_toNat_bounds hd
    have hb2 := isDigit_toNat_bounds hcdig
    exact hcc (char_eq_of_toNat (by omega)).symm
  · have hdf : c'.isDigit = false := by
      cases hb : c'.isDigit
      · rfl
      · exact absurd hb hd
    by_cases hu : c' = '_'
    · -- an underscore drops a digit, shrinking the value
      subst hu
      rcases A with _ | ⟨a, A'⟩
      · rw [List.nil_append, intCore?, if_neg (by decide), if_neg (by decide),
          pyNat?_none_of_not_usNum (by rw [usNum]; rfl)] at hpy
        exact Option.noConfusion hpy
      · have had : a.isDigit = true := hAdig a (by simp)
        rw [List.cons_append, intCore?_of_digit_head a _ had,
          ← List.cons_append] at hpy
        rcases hq : pyNat? ((a :: A') ++ '_' :: B) with _ | v
        · rw [hq] at hpy
          exact Option.noConfusion hpy
        · rw [hq] at hpy
          obtain ⟨-, hfv⟩ := pyNat?_eq_some hq
          have hfil : ((a :: A') ++ '_' :: B).filter (· ≠ '_') =
              (a :: A') ++ B := by
            rw [List.filter_append, filter_digits hAdig, List.filter_cons,
              show (decide ('_' ≠ '_')) = false from by decide]
            rw [if_neg (by simp), filter_digits hBdig]
          rw [hfil] at hfv
          have hv : digitsVal ((a :: A') ++ B) = m := by
            have h5 := Option.some.inj hpy
            have h6 : ((v : Nat) : Int) = (m : Int) := h5
            rw [hfv]
            exact_mod_cast h6
          rw [digitsVal_shift, ← hval] at hv
          have hzero : digitsVal (a :: A') * 10 ^ B.length = 0 := by
            have he := hv
            rw [pow_succ] at he
            have h7 : digitsVal (a :: A') * (10 ^ B.length * 10) =
                digitsVal (a :: A') * 10 ^ B.length * 10 := by ring
            rw [h7] at he
            omega
          have hvA : digitsVal (a :: A') = 0 := by
            rcases Nat.mul_eq_zero.1 hzero with h2 | h2
            · exact h2
            · omega
          have ha0 : a = '0' := digitsVal_cons_eq_zero had hvA
          have hm1 : 1 ≤ m := hm_pos_of_long (Or.inl (by simp))
          rw [List.cons_append] at hA
          exact natChars_head_ne_zero m hm1 a _ hA ha0
    · by_cases hminus : c' = '-'
      · -- a sign can only produce a nonpositive value
        subst hminus
        rcases A with _ | ⟨a, A'⟩
        · rw [List.nil_append, intCore?, if_pos rfl] at hpy
          rcases hq : pyNat? B with _ | v
          · rw [hq] at hpy
            exact Option.noConfusion hpy
          · rw [hq] at hpy
            have hv := Option.some.inj hpy
            have hv2 : -((v : Nat) : Int) = (m : Int) := hv
            have hm0 : m = 0 := by omega
            rw [List.nil_append] at hA
            rw [hm0, natChars_zero] at hA
            obtain ⟨-, hB⟩ := List.cons.inj hA
            rw [← hB, pyNat?_none_of_not_usNum (by rw [usNum])] at hq
            exact Option.noConfusion hq
        · have had : a.isDigit = true := hAdig a (by simp)
          rw [List.cons_append, intCore?_of_digit_head a _ had,
            ← List.cons_append,
            pyNat?_none_of_not_usNum (usNum_false_of_bad
              (show '-' ∈ (a :: A') ++ '-' :: B by simp) (by decide)
              (by decide))] at hpy
          exact Option.noConfusion hpy
      · by_cases hplus : c' = '+'
        · -- a plus sign forces a leading zero, which natChars never emits
          subst hplus
          rcases A with _ | ⟨a, A'⟩
          · rw [List.nil_append, intCore?, if_neg (by decide), if_pos rfl] at hpy
            rcases hq : pyNat? B with _ | v
            · rw [hq] at hpy
              exact Option.noConfusion hpy
            · rw [hq] at hpy
              have hv : v = m := by
                have h5 := Option.some.inj hpy
                have h6 : ((v : Nat) : Int) = (m : Int) := h5
                exact_mod_cast h6
              obtain ⟨husB, hfvB⟩ := pyNat?_eq_some hq
              have hBne : B ≠ [] := by
                intro hBnil
                rw [hBnil] at husB
                exact Bool.noConfusion husB
              rw [filter_digits hBdig] at hfvB
              have hzero : (c.toNat - 48) * 10 ^ B.length = 0 := by
                rw [show digitsVal ([] : List Char) = 0 from rfl] at hval
                omega
              have hc0 : c = '0' :=
                digit_of_sub_eq_zero hcdig (by
                  rcases Nat.mul_eq_zero.1 hzero with h2 | h2
                  · exact h2
                  · omega)
              have hm1 : 1 ≤ m := hm_pos_of_long (Or.inr hBne)
              exact natChars_head_ne_zero m hm1 c B hA hc0
          · have had : a.isDigit = true := hAdig a (by simp)
            rw [List.cons_append, intCore?_of_digit_head a _ had,
              ← List.cons_append,
              pyNat?_none_of_not_usNum (usNum_false_of_bad
                (show '+' ∈ (a :: A') ++ '+' :: B by simp) (by decide)
                (by decide))] at hpy
            exact Option.noConfusion hpy
        · -- any other character is not a valid literal character at all
          rcases A with _ | ⟨a, A'⟩
          · rw [List.nil_append, intCore?, if_neg hminus, if_neg hplus,
              pyNat?_none_of_not_usNum (by rw [usNum, hdf]; rfl)] at hpy
            exact Option.noConfusion hpy
          · have had : a.isDigit = true := hAdig a (by simp)
            rw [List.cons_append, intCore?_of_digit_head a _ had,
              ← List.cons_append,
              pyNat?_none_of_not_usNum (usNum_false_of_bad
                (show c' ∈ (a :: A') ++ c' :: B by simp) hdf hu)] at hpy
            exact Option.noConfusion hpy

/-! ### Locating a single-character substitution inside a generated token -/

theorem ne_of_length_ne {a b : List Char} (h : a.length ≠ b.length) : a ≠ b :=
  fun he => h (congrArg List.length he)

theorem colon_notin_glue {a b : List Char} {c : Char} (ha : ':' ∉ a)
    (hb : ':' ∉ b) (hc : c ≠ ':') : ':' ∉ a ++ c :: b := by
  intro hm
  rcases List.mem_append.1 hm with h1 | h1
  · exact ha h1
  · rcases List.mem_cons.1 h1 with h2 | h2
    · exact hc h2.symm
    · exact hb h2

theorem colon_split3 {A B : List Char} {c : Char} (h : ':' ∉ A ++ c :: B) :
    ':' ∉ A ∧ c ≠ ':' ∧ ':' ∉ B :=
  ⟨fun hm => h (List.mem_append.2 (Or.inl hm)),
   fun he => h (List.mem_append.2 (Or.inr (List.mem_cons.2 (Or.inl he.symm)))),
   fun hm => h (List.mem_append.2 (Or.inr (List.mem_cons.2 (Or.inr hm))))⟩

theorem colon_notin_subst {A M : List Char} {c c' : Char}
    (h : ':' ∉ A ++ c :: M) (hc' : c' ≠ ':') : ':' ∉ A ++ c' :: M := by
  obtain ⟨h1, -, h3⟩ := colon_split3 h
  exact colon_notin_glue h1 h3 hc'

/-- Where a substituted character sits relative to a distinguished colon:
strictly before it, exactly at it, or strictly after it. -/
theorem subst_align (P S A M : List Char) (c : Char)
    (h : P ++ ':' :: S = A ++ c :: M) :
    (∃ N, P = A ++ c :: N ∧ M = N ++ ':' :: S) ∨
    (A = P ∧ c = ':' ∧ M = S) ∨
    (∃ D, A = P ++ ':' :: D ∧ S = D ++ c :: M) := by
  rcases lt_trichotomy A.length P.length with hlt | heq | hgt
  · obtain ⟨N, h1, h2⟩ := split_before P (':' :: S) M c h hlt
    exact Or.inl ⟨N, h1, h2⟩
  · obtain ⟨D, h1, h2⟩ := split_after (':' :: S) A (c :: M) h (le_of_eq heq.symm)
    have hD : D = [] := by
      have hl := congrArg List.length h1
      rw [List.length_append] at hl
      rcases D with _ | ⟨d, D'⟩
      · rfl
      · rw [heq] at hl
        simp at hl
    subst hD
    rw [List.append_nil] at h1
    rw [List.nil_append] at h2
    obtain ⟨hc, hS⟩ := List.cons.inj h2
    exact Or.inr (Or.inl ⟨h1, hc.symm, hS.symm⟩)
  · obtain ⟨D, h1, h2⟩ := split_after (':' :: S) A (c :: M) h (le_of_lt hgt)
    rcases D with _ | ⟨d, D'⟩
    · rw [List.append_nil] at h1
      rw [h1] at hgt
      exact absurd hgt (lt_irrefl _)
    · rw [List.cons_append] at h2
      obtain ⟨hd, hS⟩ := List.cons.inj h2
      exact Or.inr (Or.inr ⟨D', by rw [h1, ← hd], hS⟩)

theorem intChars_nonneg (i : Int) (h : 0 ≤ i) : intChars i = natChars i.toNat := by
  rw [intChars, if_neg (by omega)]

theorem intChars_inj {a b : Int} (h : intChars a = intChars b) : a = b := by
  have h2 := congrArg pyInt? h
  rw [pyInt?_intChars, pyInt?_intChars] at h2
  exact Option.some.inj h2

/-- A single-character substitution inside the decimal rendering of a
nonnegative integer never parses back to the same integer through the ASCII
core (`pyInt?` itself does not satisfy this: Unicode digit homoglyphs
re-parse to the same value). -/
theorem dec_subst_int (t : Int) (ht : 0 ≤ t) (A B : List Char) (c c' : Char)
    (hA : intChars t = A ++ c :: B) (hcc : c ≠ c') {v : Int}
    (hv : intCore? (A ++ c' :: B) = some v) : v ≠ t := by
  intro he
  have hA2 : natChars t.toNat = A ++ c :: B := by
    rw [← intChars_nonneg t ht]
    exact hA
  have hd := dec_subst t.toNat A B c c' hA2 hcc
  rw [Int.toNat_of_nonneg ht] at hd
  exact hd (he ▸ hv)

theorem splitOnColon_fields3 (a b c : List Char)
    (ha : ':' ∉ a) (hb : ':' ∉ b) (hc : ':' ∉ c) :
    splitOnColon (a ++ ':' :: (b ++ ':' :: c)) = [a, b, c] := by
  rw [splitOnColon_append _ _ ha, splitOnColon_append _ _ hb,
    splitOnColon_no_colon _ hc]

theorem splitOnColon_fields6 (a b c d e f : List Char)
    (ha : ':' ∉ a) (hb : ':' ∉ b) (hc : ':' ∉ c) (hd : ':' ∉ d) (he : ':' ∉ e)
    (hf : ':' ∉ f) :
    splitOnColon
      (a ++ ':' :: (b ++ ':' :: (c ++ ':' :: (d ++ ':' :: (e ++ ':' :: f))))) =
      [a, b, c, d, e, f] := by
  rw [splitOnColon_append _ _ ha, splitOnColon_append _ _ hb,
    splitOnColon_append _ _ hc, splitOnColon_append _ _ hd,
    splitOnColon_append _ _ he, splitOnColon_no_colon _ hf]

theorem splitMsg_none (t e : Int) (n : Str) (hn : ':' ∉ n) :
    splitOnColon (stateMessage t e n none) = [intChars t, intChars e, n] := by
  rw [stateMessage_no_extra t e n none rfl]
  exact splitOnColon_fields3 _ _ _ (intChars_no_colon t) (intChars_no_colon e) hn

theorem splitMsg_some (t e : Int) (n p : Str) (hp : p ≠ []) (hn : ':' ∉ n)
    (hpc : ':' ∉ p) :
    splitOnColon (stateMessage t e n (some p)) =
      [intChars t, intChars e, n, p] := by
  rw [stateMessage_extra t e n p hp]
  exact splitOnColon_fields4 _ _ _ _ (intChars_no_colon t) (intChars_no_colon e)
    hn hpc

theorem parseParts3 (a b n : Str) : parseParts [a, b, n] = none := rfl

theorem parseParts6 (a b n x y s : Str) :
    parseParts [a, b, n, x, y, s] = none := rfl

theorem parseParts4_case (a b n s : Str) :
    parseParts [a, b, n, s] =
      match pyInt? a, pyInt? b with
      | some t, some e => some ⟨t, e, n, none, s⟩
      | _, _ => none := rfl

theorem parseParts5_case (a b n x s : Str) :
    parseParts [a, b, n, x, s] =
      match pyInt? a, pyInt? b with
      | some t, some e => some ⟨t, e, n, some x, s⟩
      | _, _ => none := rfl

theorem parseParts4_inv {a b n s : Str} {pt : ParsedToken}
    (h : parseParts [a, b, n, s] = some pt) :
    ∃ v1 v2, pyInt? a = some v1 ∧ pyInt? b = some v2 ∧
      pt = ⟨v1, v2, n, none, s⟩ := by
  rw [parseParts4_case] at h
  rcases hva : pyInt? a with _ | v1
  · rw [hva] at h
    exact Option.noConfusion h
  · rcases hvb : pyInt? b with _ | v2
    · rw [hva, hvb] at h
      exact Option.noConfusion h
    · rw [hva, hvb] at h
      exact ⟨v1, v2, rfl, rfl, (Option.some.inj h).symm⟩

theorem parseParts5_inv {a b n x s : Str} {pt : ParsedToken}
    (h : parseParts [a, b, n, x, s] = some pt) :
    ∃ v1 v2, pyInt? a = some v1 ∧ pyInt? b = some v2 ∧
      pt = ⟨v1, v2, n, some x, s⟩ := by
  rw [parseParts5_case] at h
  rcases hva : pyInt? a with _ | v1
  · rw [hva] at h
    exact Option.noConfusion h
  · rcases hvb : pyInt? b with _ | v2
    · rw [hva, hvb] at h
      exact Option.noConfusion h
    · rw [hva, hvb] at h
      exact ⟨v1, v2, rfl, rfl, (Option.some.inj h).symm⟩

theorem msgNone_inj {t t' e e' : Int} {n n' : Str} (hn : ':' ∉ n)
    (hn' : ':' ∉ n') (h : stateMessage t' e' n' none = stateMessage t e n none) :
    t' = t ∧ e' = e ∧ n' = n := by
  have h2 := congrArg splitOnColon h
  rw [splitMsg_none t' e' n' hn', splitMsg_none t e n hn] at h2
  simp only [List.cons.injEq, and_true] at h2
  exact ⟨intChars_inj h2.1, intChars_inj h2.2.1, h2.2.2⟩

theorem msgSome_inj {t t' e e' : Int} {n n' p p' : Str} (hn : ':' ∉ n)
    (hn' : ':' ∉ n') (hp : p ≠ []) (hp' : p' ≠ []) (hpc : ':' ∉ p)
    (hpc' : ':' ∉ p')
    (h : stateMessage t' e' n' (some p') = stateMessage t e n (some p)) :
    t' = t ∧ e' = e ∧ n' = n ∧ p' = p := by
  have h2 := congrArg splitOnColon h
  rw [splitMsg_some t' e' n' p' hp' hn' hpc',
    splitMsg_some t e n p hp hn hpc] at h2
  simp only [List.cons.injEq, and_true] at h2
  exact ⟨intChars_inj h2.1, intChars_inj h2.2.1, h2.2.2.1, h2.2.2.2⟩

theorem msgSome_ne_msgNone {t t' e e' : Int} {n n' p' : Str} (hn : ':' ∉ n)
    (hn' : ':' ∉ n') (hp' : p' ≠ []) (hpc' : ':' ∉ p') :
    stateMessage t' e' n' (some p') ≠ stateMessage t e n none := by
  intro h
  have h2 := congrArg splitOnColon h
  rw [splitMsg_some t' e' n' p' hp' hn' hpc', splitMsg_none t e n hn] at h2
  simp at h2

theorem msgSomeNil_eq_none (t e : Int) (n : Str) :
    stateMessage t e n (some []) = stateMessage t e n none := by
  rw [stateMessage_no_extra t e n (some []) rfl,
    stateMessage_no_extra t e n none rfl]

/-- `validate_state_token` can only answer `.ok` through the final signature
comparison: an accepted token parses, carries exactly the returned payload,
and its signature field equals the MAC of the re-serialized message. -/
theorem validate_ok_inv {mac : Str → Str} {now max_age : Int} {tok : Str}
    {p' : Option Str}
    (h : validate_state_token mac now max_age tok = .ok p') :
    ∃ pt : ParsedToken, parseParts (splitOnColon tok) = some pt ∧
      pt.extra = p' ∧
      pt.sig = mac (stateMessage pt.ts pt.ex pt.nonce pt.extra) := by
  rw [validate_state_token] at h
  rcases hpt : parseParts (splitOnColon tok) with _ | pt
  · rw [hpt] at h
    exact Except.noConfusion h
  · rw [hpt] at h
    have h2 : (if now > pt.ex then
          (.error .expired : Except TokenError (Option Str))
        else if max_age < |now - pt.ts| then .error .tooOld
        else if pt.sig = mac (stateMessage pt.ts pt.ex pt.nonce pt.extra) then
          .ok pt.extra
        else .error .invalidSig) = .ok p' := h
    by_cases h1 : now > pt.ex
    · rw [if_pos h1] at h2
      exact Except.noConfusion h2
    · rw [if_neg h1] at h2
      by_cases h3 : max_age < |now - pt.ts|
      · rw [if_pos h3] at h2
        exact Except.noConfusion h2
      · rw [if_neg h3] at h2
        by_cases h4 : pt.sig = mac (stateMessage pt.ts pt.ex pt.nonce pt.extra)
        · rw [if_pos h4] at h2
          exact ⟨pt, rfl, Except.ok.inj h2, h4⟩
        · rw [if_neg h4] at h2
          exact Except.noConfusion h2

/-- Single-character substitutions in a fresh token without a payload: if
the tampered token parses and its signature field matches the recomputed
MAC — the only way `validate_state_token` can accept — then the parsed
payload is still `none` and the substitution sits inside the timestamp or
expiry digits, given a fixed-length MAC with no second preimage at the
signed message. -/
theorem tamper_parse_none (mac : Str → Str) (now ttl : Int)
    (nonce : Str)
    (hn : ':' ∉ nonce) (hnne : nonce ≠ [])
    (hs : ':' ∉ mac (stateMessage now (now + ttl) nonce none))
    (hlen : ∀ m', (mac m').length =
      (mac (stateMessage now (now + ttl) nonce none)).length)
    (hsp : ∀ m', m' ≠ stateMessage now (now + ttl) nonce none →
      mac m' ≠ mac (stateMessage now (now + ttl) nonce none))
    (A M : Str) (c c' : Char) (hcc : c ≠ c')
    (htok : generate_state_token mac now ttl nonce none = A ++ c :: M)
    (pt : ParsedToken)
    (hpt : parseParts (splitOnColon (A ++ c' :: M)) = some pt)
    (hsig : pt.sig = mac (stateMessage pt.ts pt.ex pt.nonce pt.extra)) :
    pt.extra = none ∧
      A.length <
        (intChars now).length + (intChars (now + ttl)).length + 2 := by
  rw [generate_state_token] at htok
  set sg := mac (stateMessage now (now + ttl) nonce none) with hsg
  rcases subst_align _ _ A M c htok with ⟨N, hP, hM⟩ | ⟨hA, hcol, hM⟩ |
    ⟨D, hA, hS⟩
  · -- the substituted character sits inside the signed message
    rw [stateMessage_no_extra now (now + ttl) nonce none rfl] at hP
    rcases subst_align _ _ A N c hP with ⟨N₁, hf1, hN⟩ | ⟨hAf, hcol, hN⟩ |
      ⟨D₁, hAD, hrest⟩
    · -- inside the timestamp field
      have hfc' : ':' ∉ A ++ c :: N₁ := hf1 ▸ intChars_no_colon now
      obtain ⟨hAn, hcn, hN₁n⟩ := colon_split3 hfc'
      by_cases hq : c' = ':'
      · subst hq
        have hre : A ++ ':' :: M = A ++ ':' :: (N₁ ++ ':' ::
            (intChars (now + ttl) ++ ':' :: (nonce ++ ':' :: sg))) := by
          rw [hM, hN]
          simp only [List.append_assoc, List.cons_append]
        rw [hre, splitOnColon_fields5 _ _ _ _ _ hAn hN₁n
          (intChars_no_colon _) hn hs] at hpt
        obtain ⟨v1, v2, hva, hvb, rfl⟩ := parseParts5_inv hpt
        refine absurd hsig ?_
        show sg ≠ mac (stateMessage v1 v2 (intChars (now + ttl)) (some nonce))
        exact fun he =>
          hsp _ (msgSome_ne_msgNone hn (intChars_no_colon _) hnne hn) he.symm
      · have hre : A ++ c' :: M = (A ++ c' :: N₁) ++ ':' ::
            (intChars (now + ttl) ++ ':' :: (nonce ++ ':' :: sg)) := by
          rw [hM, hN]
          simp only [List.append_assoc, List.cons_append]
        rw [hre, splitOnColon_fields4 _ _ _ _ (colon_notin_subst hfc' hq)
          (intChars_no_colon _) hn hs] at hpt
        obtain ⟨v1, v2, hva, hvb, rfl⟩ := parseParts4_inv hpt
        refine ⟨rfl, ?_⟩
        have hl := congrArg List.length hf1
        simp only [List.length_append, List.length_cons] at hl
        omega
    · -- exactly at the first separating colon
      have hq : c' ≠ ':' := fun h => hcc (hcol.trans h.symm)
      have hre : A ++ c' :: M = (intChars now ++ c' :: intChars (now + ttl)) ++
          ':' :: (nonce ++ ':' :: sg) := by
        rw [hAf, hM, hN]
        simp only [List.append_assoc, List.cons_append]
      rw [hre, splitOnColon_fields3 _ _ _
        (colon_notin_glue (intChars_no_colon _) (intChars_no_colon _) hq) hn hs,
        parseParts3] at hpt
      exact Option.noConfusion hpt
    · rcases subst_align _ _ D₁ N c hrest with ⟨N₂, hf2, hN₂⟩ |
        ⟨hDf, hcol2, hN₂⟩ | ⟨D₂, hDD, hnon⟩
      · -- inside the expiry field
        have hfc2' : ':' ∉ D₁ ++ c :: N₂ := hf2 ▸ intChars_no_colon (now + ttl)
        obtain ⟨hD₁n, hcn, hN₂n⟩ := colon_split3 hfc2'
        by_cases hq : c' = ':'
        · subst hq
          have hre : A ++ ':' :: M = intChars now ++ ':' :: (D₁ ++ ':' ::
              (N₂ ++ ':' :: (nonce ++ ':' :: sg))) := by
            rw [hAD, hM, hN₂]
            simp only [List.append_assoc, List.cons_append]
          rw [hre, splitOnColon_fields5 _ _ _ _ _ (intChars_no_colon _) hD₁n
            hN₂n hn hs] at hpt
          obtain ⟨v1, v2, hva, hvb, rfl⟩ := parseParts5_inv hpt
          rw [pyInt?_intChars] at hva
          obtain rfl := Option.some.inj hva
          refine absurd hsig ?_
          show sg ≠ mac (stateMessage now v2 N₂ (some nonce))
          exact fun he => hsp _ (msgSome_ne_msgNone hn hN₂n hnne hn) he.symm
        · have hre : A ++ c' :: M = intChars now ++ ':' ::
              ((D₁ ++ c' :: N₂) ++ ':' :: (nonce ++ ':' :: sg)) := by
            rw [hAD, hM, hN₂]
            simp only [List.append_assoc, List.cons_append]
          rw [hre, splitOnColon_fields4 _ _ _ _ (intChars_no_colon _)
            (colon_notin_subst hfc2' hq) hn hs] at hpt
          obtain ⟨v1, v2, hva, hvb, rfl⟩ := parseParts4_inv hpt
          refine ⟨rfl, ?_⟩
          have hlA := congrArg List.length hAD
          have hl2 := congrArg List.length hf2
          simp only [List.length_append, List.length_cons] at hlA hl2
          omega
      · -- exactly at the second separating colon
        have hq : c' ≠ ':' := fun h => hcc (hcol2.trans h.symm)
        have hre : A ++ c' :: M = intChars now ++ ':' ::
            ((intChars (now + ttl) ++ c' :: nonce) ++ ':' :: sg) := by
          rw [hAD, hDf, hM, hN₂]
          simp only [List.append_assoc, List.cons_append]
        rw [hre, splitOnColon_fields3 _ _ _ (intChars_no_colon _)
          (colon_notin_glue (intChars_no_colon _) hn hq) hs,
          parseParts3] at hpt
        exact Option.noConfusion hpt
      · -- inside the nonce field
        have hnc' : ':' ∉ D₂ ++ c :: N := hnon ▸ hn
        obtain ⟨hD₂n, hcn, hNn⟩ := colon_split3 hnc'
        by_cases hq : c' = ':'
        · subst hq
          have hre : A ++ ':' :: M = intChars now ++ ':' ::
              (intChars (now + ttl) ++ ':' :: (D₂ ++ ':' ::
                (N ++ ':' :: sg))) := by
            rw [hAD, hDD, hM]
            simp only [List.append_assoc, List.cons_append]
          rw [hre, splitOnColon_fields5 _ _ _ _ _ (intChars_no_colon _)
            (intChars_no_colon _) hD₂n hNn hs] at hpt
          obtain ⟨v1, v2, hva, hvb, rfl⟩ := parseParts5_inv hpt
          rw [pyInt?_intChars] at hva hvb
          obtain rfl := Option.some.inj hva
          obtain rfl := Option.some.inj hvb
          refine absurd hsig ?_
          show sg ≠ mac (stateMessage now (now + ttl) D₂ (some N))
          rcases N with _ | ⟨x0, N'⟩
          · rw [msgSomeNil_eq_none]
            intro he
            refine hsp _ ?_ he.symm
            intro hmeq
            have hD₂ := (msgNone_inj hn hD₂n hmeq).2.2
            have hl := congrArg List.length hnon
            rw [hD₂] at hl
            simp at hl
          · exact fun he =>
              hsp _ (msgSome_ne_msgNone hn hD₂n (by simp) hNn) he.symm
        · have hre : A ++ c' :: M = intChars now ++ ':' ::
              (intChars (now + ttl) ++ ':' :: ((D₂ ++ c' :: N) ++
                ':' :: sg)) := by
            rw [hAD, hDD, hM]
            simp only [List.append_assoc, List.cons_append]
          rw [hre, splitOnColon_fields4 _ _ _ _ (intChars_no_colon _)
            (intChars_no_colon _) (colon_notin_subst hnc' hq) hs] at hpt
          obtain ⟨v1, v2, hva, hvb, rfl⟩ := parseParts4_inv hpt
          rw [pyInt?_intChars] at hva hvb
          obtain rfl := Option.some.inj hva
          obtain rfl := Option.some.inj hvb
          refine absurd hsig ?_
          show sg ≠ mac (stateMessage now (now + ttl) (D₂ ++ c' :: N) none)
          intro he
          refine hsp _ ?_ he.symm
          intro hmeq
          have h3 := (msgNone_inj hn (colon_notin_subst hnc' hq) hmeq).2.2
          rw [hnon] at h3
          exact hcc ((List.cons.inj (List.append_cancel_left h3)).1).symm
  · -- exactly at the colon separating message and signature
    have hq : c' ≠ ':' := fun h => hcc (hcol.trans h.symm)
    have hre : A ++ c' :: M = intChars now ++ ':' ::
        (intChars (now + ttl) ++ ':' :: (nonce ++ c' :: sg)) := by
      rw [hA, hM, stateMessage_no_extra now (now + ttl) nonce none rfl]
      simp only [List.append_assoc, List.cons_append]
    rw [hre, splitOnColon_fields3 _ _ _ (intChars_no_colon _)
      (intChars_no_colon _) (colon_notin_glue hn hs hq), parseParts3] at hpt
    exact Option.noConfusion hpt
  · -- the substituted character sits inside the signature
    have hs' : ':' ∉ D ++ c :: M := hS ▸ hs
    obtain ⟨hD, hc0, hM0⟩ := colon_split3 hs'
    by_cases hq : c' = ':'
    · subst hq
      have hre : A ++ ':' :: M = intChars now ++ ':' ::
          (intChars (now + ttl) ++ ':' :: (nonce ++ ':' ::
            (D ++ ':' :: M))) := by
        rw [hA, stateMessage_no_extra now (now + ttl) nonce none rfl]
        simp only [List.append_assoc, List.cons_append]
      rw [hre, splitOnColon_fields5 _ _ _ _ _ (intChars_no_colon _)
        (intChars_no_colon _) hn hD hM0] at hpt
      obtain ⟨v1, v2, hva, hvb, rfl⟩ := parseParts5_inv hpt
      rw [pyInt?_intChars] at hva hvb
      obtain rfl := Option.some.inj hva
      obtain rfl := Option.some.inj hvb
      refine absurd hsig ?_
      show M ≠ mac (stateMessage now (now + ttl) nonce (some D))
      rcases D with _ | ⟨d, D'⟩
      · rw [msgSomeNil_eq_none, ← hsg]
        refine ne_of_length_ne ?_
        rw [hS, List.nil_append, List.length_cons]
        omega
      · refine ne_of_length_ne ?_
        rw [hlen]
        have hl := congrArg List.length hS
        simp only [List.length_append, List.length_cons] at hl
        omega
    · have hre : A ++ c' :: M = intChars now ++ ':' ::
          (intChars (now + ttl) ++ ':' :: (nonce ++ ':' ::
            (D ++ c' :: M))) := by
        rw [hA, stateMessage_no_extra now (now + ttl) nonce none rfl]
        simp only [List.append_assoc, List.cons_append]
      rw [hre, splitOnColon_fields4 _ _ _ _ (intChars_no_colon _)
        (intChars_no_colon _) hn (colon_notin_subst hs' hq)] at hpt
      obtain ⟨v1, v2, hva, hvb, rfl⟩ := parseParts4_inv hpt
      rw [pyInt?_intChars] at hva hvb
      obtain rfl := Option.some.inj hva
      obtain rfl := Option.some.inj hvb
      refine absurd hsig ?_
      show D ++ c' :: M ≠ mac (stateMessage now (now + ttl) nonce none)
      rw [← hsg]
      intro he
      rw [hS] at he
      exact hcc ((List.cons.inj (List.append_cancel_left he.symm)).1)

/-- Single-character substitutions in a fresh token carrying a payload: if
the tampered token parses and its signature field matches the recomputed
MAC — the only way `validate_state_token` can accept — then the parsed
payload is still the original one and the substitution sits inside the
timestamp or expiry digits, given a fixed-length MAC with no second
preimage at the signed message. -/
theorem tamper_parse_some (mac : Str → Str) (now ttl : Int)
    (nonce p : Str)
    (hn : ':' ∉ nonce)
    (hpne : p ≠ []) (hpc : ':' ∉ p)
    (hs : ':' ∉ mac (stateMessage now (now + ttl) nonce (some p)))
    (hlen : ∀ m', (mac m').length =
      (mac (stateMessage now (now + ttl) nonce (some p))).length)
    (hsp : ∀ m', m' ≠ stateMessage now (now + ttl) nonce (some p) →
      mac m' ≠ mac (stateMessage now (now + ttl) nonce (some p)))
    (A M : Str) (c c' : Char) (hcc : c ≠ c')
    (htok : generate_state_token mac now ttl nonce (some p) = A ++ c :: M)
    (pt : ParsedToken)
    (hpt : parseParts (splitOnColon (A ++ c' :: M)) = some pt)
    (hsig : pt.sig = mac (stateMessage pt.ts pt.ex pt.nonce pt.extra)) :
    pt.extra = some p ∧
      A.length <
        (intChars now).length + (intChars (now + ttl)).length + 2 := by
  rw [generate_state_token] at htok
  set sg := mac (stateMessage now (now + ttl) nonce (some p)) with hsg
  rcases subst_align _ _ A M c htok with ⟨N, hP, hM⟩ | ⟨hA, hcol, hM⟩ |
    ⟨D, hA, hS⟩
  · -- the substituted character sits inside the signed message
    rw [stateMessage_extra now (now + ttl) nonce p hpne] at hP
    rcases subst_align _ _ A N c hP with ⟨N₁, hf1, hN⟩ | ⟨hAf, hcol, hN⟩ |
      ⟨D₁, hAD, hrest⟩
    · -- inside the timestamp field
      have hfc' : ':' ∉ A ++ c :: N₁ := hf1 ▸ intChars_no_colon now
      obtain ⟨hAn, hcn, hN₁n⟩ := colon_split3 hfc'
      by_cases hq : c' = ':'
      · subst hq
        have hre : A ++ ':' :: M = A ++ ':' :: (N₁ ++ ':' ::
            (intChars (now + ttl) ++ ':' :: (nonce ++ ':' ::
              (p ++ ':' :: sg)))) := by
          rw [hM, hN]
          simp only [List.append_assoc, List.cons_append]
        rw [hre, splitOnColon_fields6 _ _ _ _ _ _ hAn hN₁n
          (intChars_no_colon _) hn hpc hs, parseParts6] at hpt
        exact Option.noConfusion hpt
      · have hre : A ++ c' :: M = (A ++ c' :: N₁) ++ ':' ::
            (intChars (now + ttl) ++ ':' :: (nonce ++ ':' ::
              (p ++ ':' :: sg))) := by
          rw [hM, hN]
          simp only [List.append_assoc, List.cons_append]
        rw [hre, splitOnColon_fields5 _ _ _ _ _ (colon_notin_subst hfc' hq)
          (intChars_no_colon _) hn hpc hs] at hpt
        obtain ⟨v1, v2, hva, hvb, rfl⟩ := parseParts5_inv hpt
        refine ⟨rfl, ?_⟩
        have hl := congrArg List.length hf1
        simp only [List.length_append, List.length_cons] at hl
        omega
    · -- exactly at the first separating colon
      have hq : c' ≠ ':' := fun h => hcc (hcol.trans h.symm)
      have hre : A ++ c' :: M = (intChars now ++ c' :: intChars (now + ttl)) ++
          ':' :: (nonce ++ ':' :: (p ++ ':' :: sg)) := by
        rw [hAf, hM, hN]
        simp only [List.append_assoc, List.cons_append]
      rw [hre, splitOnColon_fields4 _ _ _ _
        (colon_notin_glue (intChars_no_colon _) (intChars_no_colon _) hq)
        hn hpc hs] at hpt
      obtain ⟨v1, v2, hva, hvb, rfl⟩ := parseParts4_inv hpt
      refine absurd hsig ?_
      show sg ≠ mac (stateMessage v1 v2 p none)
      exact fun he => hsp _
        (fun hmeq => msgSome_ne_msgNone hpc hn hpne hpc hmeq.symm) he.symm
    · rcases subst_align _ _ D₁ N c hrest with ⟨N₂, hf2, hN₂⟩ |
        ⟨hDf, hcol2, hN₂⟩ | ⟨D₂, hDD, hrest2⟩
      · -- inside the expiry field
        have hfc2' : ':' ∉ D₁ ++ c :: N₂ := hf2 ▸ intChars_no_colon (now + ttl)
        obtain ⟨hD₁n, hcn, hN₂n⟩ := colon_split3 hfc2'
        by_cases hq : c' = ':'
        · subst hq
          have hre : A ++ ':' :: M = intChars now ++ ':' :: (D₁ ++ ':' ::
              (N₂ ++ ':' :: (nonce ++ ':' :: (p ++ ':' :: sg)))) := by
            rw [hAD, hM, hN₂]
            simp only [List.append_assoc, List.cons_append]
          rw [hre, splitOnColon_fields6 _ _ _ _ _ _ (intChars_no_colon _)
            hD₁n hN₂n hn hpc hs, parseParts6] at hpt
          exact Option.noConfusion hpt
        · have hre : A ++ c' :: M = intChars now ++ ':' ::
              ((D₁ ++ c' :: N₂) ++ ':' :: (nonce ++ ':' ::
                (p ++ ':' :: sg))) := by
            rw [hAD, hM, hN₂]
            simp only [List.append_assoc, List.cons_append]
          rw [hre, splitOnColon_fields5 _ _ _ _ _ (intChars_no_colon _)
            (colon_notin_subst hfc2' hq) hn hpc hs] at hpt
          obtain ⟨v1, v2, hva, hvb, rfl⟩ := parseParts5_inv hpt
          refine ⟨rfl, ?_⟩
          have hlA := congrArg List.length hAD
          have hl2 := congrArg List.length hf2
          simp only [List.length_append, List.length_cons] at hlA hl2
          omega
      · -- exactly at the second separating colon
        have hq : c' ≠ ':' := fun h => hcc (hcol2.trans h.symm)
        have hre : A ++ c' :: M = intChars now ++ ':' ::
            ((intChars (now + ttl) ++ c' :: nonce) ++ ':' ::
              (p ++ ':' :: sg)) := by
          rw [hAD, hDf, hM, hN₂]
          simp only [List.append_assoc, List.cons_append]
        rw [hre, splitOnColon_fields4 _ _ _ _ (intChars_no_colon _)
          (colon_notin_glue (intChars_no_colon _) hn hq) hpc hs] at hpt
        obtain ⟨v1, v2, hva, hvb, rfl⟩ := parseParts4_inv hpt
        refine absurd hsig ?_
        show sg ≠ mac (stateMessage v1 v2 p none)
        exact fun he => hsp _
          (fun hmeq => msgSome_ne_msgNone hpc hn hpne hpc hmeq.symm) he.symm
      · rcases subst_align _ _ D₂ N c hrest2 with ⟨N₃, hnon, hN₃⟩ |
          ⟨hDn, hcol3, hN₃⟩ | ⟨D₃, hDD₂, hpdec⟩
        · -- inside the nonce field
          have hnc' : ':' ∉ D₂ ++ c :: N₃ := hnon ▸ hn
          obtain ⟨hD₂n, hcn, hN₃n⟩ := colon_split3 hnc'
          by_cases hq : c' = ':'
          · subst hq
            have hre : A ++ ':' :: M = intChars now ++ ':' ::
                (intChars (now + ttl) ++ ':' :: (D₂ ++ ':' ::
                  (N₃ ++ ':' :: (p ++ ':' :: sg)))) := by
              rw [hAD, hDD, hM, hN₃]
              simp only [List.append_assoc, List.cons_append]
            rw [hre, splitOnColon_fields6 _ _ _ _ _ _ (intChars_no_colon _)
              (intChars_no_colon _) hD₂n hN₃n hpc hs, parseParts6] at hpt
            exact Option.noConfusion hpt
          · have hre : A ++ c' :: M = intChars now ++ ':' ::
                (intChars (now + ttl) ++ ':' :: ((D₂ ++ c' :: N₃) ++ ':' ::
                  (p ++ ':' :: sg))) := by
              rw [hAD, hDD, hM, hN₃]
              simp only [List.append_assoc, List.cons_append]
            rw [hre, splitOnColon_fields5 _ _ _ _ _ (intChars_no_colon _)
              (intChars_no_colon _) (colon_notin_subst hnc' hq) hpc hs] at hpt
            obtain ⟨v1, v2, hva, hvb, rfl⟩ := parseParts5_inv hpt
            rw [pyInt?_intChars] at hva hvb
            obtain rfl := Option.some.inj hva
            obtain rfl := Option.some.inj hvb
            refine absurd hsig ?_
            show sg ≠ mac (stateMessage now (now + ttl) (D₂ ++ c' :: N₃)
              (some p))
            intro he
            refine hsp _ ?_ he.symm
            intro hmeq
            have h3 := (msgSome_inj hn (colon_notin_subst hnc' hq) hpne hpne
              hpc hpc hmeq).2.2.1
            rw [hnon] at h3
            exact hcc ((List.cons.inj (List.append_cancel_left h3)).1).symm
        · -- exactly at the colon separating nonce and payload
          have hq : c' ≠ ':' := fun h => hcc (hcol3.trans h.symm)
          have hre : A ++ c' :: M = intChars now ++ ':' ::
              (intChars (now + ttl) ++ ':' :: ((nonce ++ c' :: p) ++
                ':' :: sg)) := by
            rw [hAD, hDD, hDn, hM, hN₃]
            simp only [List.append_assoc, List.cons_append]
          rw [hre, splitOnColon_fields4 _ _ _ _ (intChars_no_colon _)
            (intChars_no_colon _) (colon_notin_glue hn hpc hq) hs] at hpt
          obtain ⟨v1, v2, hva, hvb, rfl⟩ := parseParts4_inv hpt
          rw [pyInt?_intChars] at hva hvb
          obtain rfl := Option.some.inj hva
          obtain rfl := Option.some.inj hvb
          refine absurd hsig ?_
          show sg ≠ mac (stateMessage now (now + ttl) (nonce ++ c' :: p) none)
          exact fun he => hsp _ (fun hmeq => msgSome_ne_msgNone
            (colon_notin_glue hn hpc hq) hn hpne hpc hmeq.symm) he.symm
        · -- inside the payload field
          have hpc' : ':' ∉ D₃ ++ c :: N := hpdec ▸ hpc
          obtain ⟨hD₃n, hcn, hNn⟩ := colon_split3 hpc'
          by_cases hq : c' = ':'
          · subst hq
            have hre : A ++ ':' :: M = intChars now ++ ':' ::
                (intChars (now + ttl) ++ ':' :: (nonce ++ ':' ::
                  (D₃ ++ ':' :: (N ++ ':' :: sg)))) := by
              rw [hAD, hDD, hDD₂, hM]
              simp only [List.append_assoc, List.cons_append]
            rw [hre, splitOnColon_fields6 _ _ _ _ _ _ (intChars_no_colon _)
              (intChars_no_colon _) hn hD₃n hNn hs, parseParts6] at hpt
            exact Option.noConfusion hpt
          · have hre : A ++ c' :: M = intChars now ++ ':' ::
                (intChars (now + ttl) ++ ':' :: (nonce ++ ':' ::
                  ((D₃ ++ c' :: N) ++ ':' :: sg))) := by
              rw [hAD, hDD, hDD₂, hM]
              simp only [List.append_assoc, List.cons_append]
            rw [hre, splitOnColon_fields5 _ _ _ _ _ (intChars_no_colon _)
              (intChars_no_colon _) hn (colon_notin_subst hpc' hq) hs] at hpt
            obtain ⟨v1, v2, hva, hvb, rfl⟩ := parseParts5_inv hpt
            rw [pyInt?_intChars] at hva hvb
            obtain rfl := Option.some.inj hva
            obtain rfl := Option.some.inj hvb
            refine absurd hsig ?_
            show sg ≠ mac (stateMessage now (now + ttl) nonce
              (some (D₃ ++ c' :: N)))
            intro he
            refine hsp _ ?_ he.symm
            intro hmeq
            have h3 := (msgSome_inj hn hn hpne (by simp)
              hpc (colon_notin_subst hpc' hq) hmeq).2.2.2
            rw [hpdec] at h3
            exact hcc ((List.cons.inj (List.append_cancel_left h3)).1).symm
  · -- exactly at the colon separating message and signature
    have hq : c' ≠ ':' := fun h => hcc (hcol.trans h.symm)
    have hre : A ++ c' :: M = intChars now ++ ':' ::
        (intChars (now + ttl) ++ ':' :: (nonce ++ ':' ::
          (p ++ c' :: sg))) := by
      rw [hA, hM, stateMessage_extra now (now + ttl) nonce p hpne]
      simp only [List.append_assoc, List.cons_append]
    rw [hre, splitOnColon_fields4 _ _ _ _ (intChars_no_colon _)
      (intChars_no_colon _) hn (colon_notin_glue hpc hs hq)] at hpt
    obtain ⟨v1, v2, hva, hvb, rfl⟩ := parseParts4_inv hpt
    refine absurd hsig ?_
    show p ++ c' :: sg ≠ mac (stateMessage v1 v2 nonce none)
    refine ne_of_length_ne ?_
    rw [hlen]
    simp only [List.length_append, List.length_cons]
    omega
  · -- the substituted character sits inside the signature
    have hs' : ':' ∉ D ++ c :: M := hS ▸ hs
    obtain ⟨hD, hc0, hM0⟩ := colon_split3 hs'
    by_cases hq : c' = ':'
    · subst hq
      have hre : A ++ ':' :: M = intChars now ++ ':' ::
          (intChars (now + ttl) ++ ':' :: (nonce ++ ':' ::
            (p ++ ':' :: (D ++ ':' :: M)))) := by
        rw [hA, stateMessage_extra now (now + ttl) nonce p hpne]
        simp only [List.append_assoc, List.cons_append]
      rw [hre, splitOnColon_fields6 _ _ _ _ _ _ (intChars_no_colon _)
        (intChars_no_colon _) hn hpc hD hM0, parseParts6] at hpt
      exact Option.noConfusion hpt
    · have hre : A ++ c' :: M = intChars now ++ ':' ::
          (intChars (now + ttl) ++ ':' :: (nonce ++ ':' ::
            (p ++ ':' :: (D ++ c' :: M)))) := by
        rw [hA, stateMessage_extra now (now + ttl) nonce p hpne]
        simp only [List.append_assoc, List.cons_append]
      rw [hre, splitOnColon_fields5 _ _ _ _ _ (intChars_no_colon _)
        (intChars_no_colon _) hn hpc (colon_notin_subst hs' hq)] at hpt
      obtain ⟨v1, v2, hva, hvb, rfl⟩ := parseParts5_inv hpt
      rw [pyInt?_intChars] at hva hvb
      obtain rfl := Option.some.inj hva
      obtain rfl := Option.some.inj hvb
      refine absurd hsig ?_
      show D ++ c' :: M ≠ mac (stateMessage now (now + ttl) nonce (some p))
      rw [← hsg]
      intro he
      rw [hS] at he
      exact hcc ((List.cons.inj (List.append_cancel_left he.symm)).1)

/-- C2 (amended): tampering with a fresh token never yields a different
accepted payload, assuming the MAC output is colon-free, has a fixed length,
and admits no second preimage at the signed message. (a) Replacing the nonce
or the payload field by any other colon-free shape-preserving value while
keeping the original signature fails exactly with an invalid signature.
(b) If a token obtained by a single-character substitution anywhere in a
fresh token is accepted at all, the returned payload is exactly the
originally signed one and the substitution sits inside the timestamp or
expiry digits — and such acceptances do occur: `int()` accepts Unicode
decimal digits, so replacing a timestamp digit by an equal-valued homoglyph
re-parses to the same integer, the re-serialized ASCII message matches the
signature, and the token is accepted (see the counterexample). Substitutions
anywhere else — nonce, payload, a separator colon or the signature — are
always rejected, though for the integer fields the failure can be
malformed, expired or too-old rather than an invalid signature. -/
theorem c2_tamper_amended (mac : Str → Str) (now ttl max_age : Int)
    (nonce nonce' : Str) (extra extra' : Option Str)
    (httl : 0 ≤ ttl) (hage : 0 ≤ max_age)
    (hn : ':' ∉ nonce) (hnne : nonce ≠ []) (hn' : ':' ∉ nonce')
    (hshape : (extra = none ∧ extra' = none) ∨
      ∃ p p', extra = some p ∧ extra' = some p' ∧
        p ≠ [] ∧ p' ≠ [] ∧ ':' ∉ p ∧ ':' ∉ p')
    (hdiff : ¬(nonce' = nonce ∧ extra' = extra))
    (hs : ':' ∉ mac (stateMessage now (now + ttl) nonce extra))
    (hlen : ∀ m', (mac m').length =
      (mac (stateMessage now (now + ttl) nonce extra)).length)
    (hsp : ∀ m', m' ≠ stateMessage now (now + ttl) nonce extra →
      mac m' ≠ mac (stateMessage now (now + ttl) nonce extra)) :
    validate_state_token mac now max_age
      (stateMessage now (now + ttl) nonce' extra' ++
        ':' :: mac (stateMessage now (now + ttl) nonce extra))
      = .error .invalidSig ∧
    ∀ (A M : Str) (c c' : Char) (po : Option Str), c ≠ c' →
      generate_state_token mac now ttl nonce extra = A ++ c :: M →
      validate_state_token mac now max_age (A ++ c' :: M) = .ok po →
      po = extra ∧
        A.length <
          (intChars now).length + (intChars (now + ttl)).length + 2 := by
  constructor
  · have hmm : ∀ _ : mac (stateMessage now (now + ttl) nonce extra) =
        mac (stateMessage now (now + ttl) nonce' extra'), False := by
      intro heq
      refine hsp (stateMessage now (now + ttl) nonce' extra') ?_ heq.symm
      intro hmeq
      obtain ⟨h1, h2⟩ := stateMessage_fields_inj now (now + ttl) nonce nonce'
        extra extra' hn hn' (by
          rcases hshape with ⟨hx, hx'⟩ | ⟨p, p', hx, hx', hrest⟩
          · exact Or.inl ⟨hx, hx'⟩
          · exact Or.inr ⟨p, p', hx, hx', hrest⟩) hmeq
      exact hdiff ⟨h1, h2⟩
    rcases hshape with ⟨hx, hx'⟩ | ⟨p, p', hx, hx', hp, hp', hpc, hpc'⟩
    · subst hx
      subst hx'
      have hsplit : splitOnColon (stateMessage now (now + ttl) nonce' none ++
          ':' :: mac (stateMessage now (now + ttl) nonce none)) =
          [intChars now, intChars (now + ttl), nonce',
            mac (stateMessage now (now + ttl) nonce none)] := by
        rw [stateMessage_no_extra now (now + ttl) nonce' none rfl]
        simp only [List.append_assoc, List.cons_append]
        exact splitOnColon_fields4 _ _ _ _ (intChars_no_colon now)
          (intChars_no_colon (now + ttl)) hn' hs
      rw [validate_of_split4 mac now max_age _ now (now + ttl) nonce' _ hsplit,
        if_neg (by omega), if_neg (by rw [sub_self, abs_zero]; omega),
        if_neg (fun heq => hmm heq)]
    · subst hx
      subst hx'
      have hsplit : splitOnColon (stateMessage now (now + ttl) nonce'
          (some p') ++
          ':' :: mac (stateMessage now (now + ttl) nonce (some p))) =
          [intChars now, intChars (now + ttl), nonce', p',
            mac (stateMessage now (now + ttl) nonce (some p))] := by
        rw [stateMessage_extra now (now + ttl) nonce' p' hp']
        simp only [List.append_assoc, List.cons_append]
        exact splitOnColon_fields5 _ _ _ _ _ (intChars_no_colon now)
          (intChars_no_colon (now + ttl)) hn' hpc' hs
      rw [validate_of_split5 mac now max_age _ now (now + ttl) nonce' p' _
          hsplit,
        if_neg (by omega), if_neg (by rw [sub_self, abs_zero]; omega),
        if_neg (fun heq => hmm heq)]
  · intro A M c c' po hcc htok hval
    obtain ⟨pt, hpt, hex, hsig⟩ := validate_ok_inv hval
    rcases hshape with ⟨hx, hx'⟩ | ⟨p, p', hx, hx', hp, hp', hpc, hpc'⟩
    · subst hx
      obtain ⟨hpe, hbound⟩ := tamper_parse_none mac now ttl nonce hn hnne
        hs hlen hsp A M c c' hcc htok pt hpt hsig
      exact ⟨by rw [← hex]; exact hpe, hbound⟩
    · subst hx
      obtain ⟨hpe, hbound⟩ := tamper_parse_some mac now ttl nonce p hn
        hp hpc hs hlen hsp A M c c' hcc htok pt hpt hsig
      exact ⟨by rw [← hex]; exact hpe, hbound⟩

theorem c2_tamper_amended_witness :
    (0 : Int) ≤ 1 ∧ (0 : Int) ≤ 0 ∧
    ':' ∉ (['N'] : Str) ∧ (['N'] : Str) ≠ [] ∧ ':' ∉ (['M'] : Str) ∧
    ¬((['M'] : Str) = ['N'] ∧ (none : Option Str) = none) ∧
    ('5' : Char) ≠ '٥' ∧
    validate_state_token
      (fun m => if m = stateMessage 5 (5 + 1) ['N'] none then ['A'] else ['B'])
      5 0
      (stateMessage 5 (5 + 1) ['M'] none ++
        ':' :: (fun m => if m = stateMessage 5 (5 + 1) ['N'] none then ['A']
          else ['B']) (stateMessage 5 (5 + 1) ['N'] none))
      = .error .invalidSig ∧
    generate_state_token
      (fun m => if m = stateMessage 5 (5 + 1) ['N'] none then ['A'] else ['B'])
      5 1 ['N'] none = [] ++ '5' :: [':', '6', ':', 'N', ':', 'A'] ∧
    validate_state_token
      (fun m => if m = stateMessage 5 (5 + 1) ['N'] none then ['A'] else ['B'])
      5 0 ([] ++ '٥' :: [':', '6', ':', 'N', ':', 'A'])
      = .ok none ∧
    ((none : Option Str) = none ∧
      ([] : Str).length <
        (intChars 5).length + (intChars (5 + 1)).length + 2) := by
  have hth := c2_tamper_amended
    (fun m => if m = stateMessage 5 (5 + 1) ['N'] none then ['A'] else ['B'])
    5 1 0 ['N'] ['M'] none none (by decide) (by decide)
    (by decide) (by decide) (by decide) (Or.inl ⟨rfl, rfl⟩) (by decide)
    (by decide)
    (by
      intro m'
      by_cases h : m' = stateMessage 5 6 ['N'] none
      · simp [h]
      · simp [h])
    (by
      intro m' hne
      have hne6 : m' ≠ stateMessage 5 6 ['N'] none := by
        rw [show (6 : Int) = 5 + 1 by norm_num]
        exact hne
      simp [hne6])
  refine ⟨by decide, by decide, by decide, by decide, by decide, by decide,
    by decide, hth.1, by decide, rfl, ?_⟩
  exact hth.2 [] [':', '6', ':', 'N', ':', 'A'] '5' '٥' none (by decide)
    (by decide) rfl
